import Mathlib

/-
  Verification development for the dynalog logging library.

  The definitions below are shallow embeddings of the C++ sources:
  pointers to emitters become Option Nat (none models a null pointer),
  the five-valued severity enumeration becomes a Nat index 0..4, level
  bitmasks become Nat bitmasks, and the configuration engine state
  becomes a priority-sorted association list of policy nodes together
  with per-site sink and mask maps.
-/

namespace Dynalog

/-! ## Level serialization (src/source/Log.cpp, operator<< for Level) -/

/-- Names array used by the stream operator for Level. -/
def levelNames : List String := ["CRITICAL", "ERROR", "WARNING", "INFO", "VERBOSE"]

/-- Text written by the stream insertion operator for a Level whose
underlying index is n. In-range values print the uppercase name, all
other values print the invalid-level diagnostic built from the index. -/
def levelToText (n : Nat) : String :=
  if h : n < levelNames.length then levelNames.get ⟨n, h⟩
  else "<invalid ::dynalog::Level(" ++ Nat.repr n ++ ")>"

/-- Modelled from the spec: the EnumSet class backing LevelSet is not
among the sources (only its uses are). The spec describes the level
mask as a bit-set over the severity enumeration, so get tests the bit
for the given level index in the mask. -/
def levelGet (mask : Nat) (level : Nat) : Bool := Nat.testBit mask level

/-! ## Logger fast path (src/include/Logger.h, Logger::log) -/

/-- State of one call-site record that the fast path reads: the atomic
emitter pointer (none models null) and the level mask. -/
structure Logger where
  emitter : Option Nat
  levels : Nat

/-- Observable effect of one Logger::log call: how many times the
builder was applied (messages constructed) and the emit calls made,
each recording the loaded emitter and the built message. -/
structure LogTrace where
  builds : Nat
  emits : List (Nat × Nat)
deriving DecidableEq

/-- Embedding of Logger::log: load the emitter, test it and the level
bit; only when both pass, build one message and emit once on the
loaded emitter. msg stands for the message the builder produces. -/
def Logger.log (lg : Logger) (level : Nat) (msg : Nat) : LogTrace :=
  match lg.emitter with
  | none => { builds := 0, emits := [] }
  | some destination =>
      if levelGet lg.levels level then
        { builds := 1, emits := [(destination, msg)] }
      else
        { builds := 0, emits := [] }

/-! ## Bootstrap sink (src/include/Configuration.h, BootstrapEmitter::emit) -/

/-- One captured element of a message as seen through reflection:
either a Level value or some other value. -/
inductive Captured where
  | level (n : Nat)
  | other (tag : Nat)
deriving DecidableEq

/-- Embedding of the reflection loop in BootstrapEmitter::emit: walk
the captured elements in order; skip non-Level elements; at the first
Level element, break out (continue to delivery) when its bit is set in
the mask and abort (drop) when it is clear. Reaching the end also
continues to delivery. Returns true when the message survives. -/
def bootstrapScan (mask : Nat) : List Captured → Bool
  | [] => true
  | Captured.other _ :: rest => bootstrapScan mask rest
  | Captured.level l :: _ => levelGet mask l

/-- Embedding of BootstrapEmitter::emit after the site has been
registered: mask and installed are the site mask and emitter that the
bootstrap sink reads back from the site; the result is the emitter the
message is delegated to, or none when it is dropped. -/
def BootstrapEmitter.emit (mask : Nat) (elems : List Captured) (installed : Option Nat) :
    Option Nat :=
  if bootstrapScan mask elems then installed else none

/-! ## Deferred sink insert (src/source/async/Emitter.cpp, Dispatcher::insert) -/

/-- Diagnostic line written by Dispatcher::insert on queue-full. -/
def dispatcherWarning : String :=
  "Warning: dynalog::async::Dispatcher: Queue full, dropping message!\n"

/-- Observable effect of one Dispatcher::insert call. The function in
the source returns void, so no error value can reach the caller; the
embedding records what was observable instead: whether the message
went into the queue and what was written to standard error. -/
structure InsertEffect where
  delivered : Bool
  stderrOut : List String
deriving DecidableEq

/-- Embedding of Dispatcher::insert. queueAccepted is the boolean the
LatencyQueue insert returned (false when the queue was still full when
the configured timeout expired). -/
def Dispatcher.insert (queueAccepted : Bool) : InsertEffect :=
  if queueAccepted then
    { delivered := true, stderrOut := [] }
  else
    { delivered := false, stderrOut := [dispatcherWarning] }

/-! ## ObjectBuffer (src/include/ObjectBuffer.h) -/

/-- A C++ type as the buffer sees it: its size and its typeid. -/
structure CppType where
  size : Nat
  tag : Nat
deriving DecidableEq

/-- Events observable on the buffer contents. -/
inductive BufEvent where
  | destroyed (tag : Nat)
  | allocated (size : Nat)
  | constructed (tag : Nat)
deriving DecidableEq

/-- State of an ObjectBuffer: info and destructor are none exactly
when no object is stored (destructor tracks the tag of the stored
type, mirroring the function pointer); capacity is the byte capacity
and allocId identifies the current allocation. -/
structure ObjectBuffer where
  info : Option Nat
  destructor : Option Nat
  capacity : Nat
  allocId : Nat
deriving DecidableEq

/-- ObjectBuffer::empty: occupied iff the destructor pointer is set. -/
def ObjectBuffer.isEmpty (b : ObjectBuffer) : Bool := b.destructor = none

/-- ObjectBuffer::clear: destroy the contained object, if any. -/
def ObjectBuffer.clear (b : ObjectBuffer) : ObjectBuffer × List BufEvent :=
  match b.destructor with
  | none => (b, [])
  | some t => ({ b with destructor := none, info := none }, [BufEvent.destroyed t])

/-- ObjectBuffer::resize: clear, then install a fresh allocation of
the requested capacity. -/
def ObjectBuffer.resize (b : ObjectBuffer) (size : Nat) : ObjectBuffer × List BufEvent :=
  let (b1, evs) := b.clear
  ({ b1 with capacity := size, allocId := b1.allocId + 1 }, evs ++ [BufEvent.allocated size])

/-- ObjectBuffer::emplace for a type ty: resize when the type does not
fit the current capacity, otherwise just clear; then record the new
destructor and type info and construct the object in place. -/
def ObjectBuffer.emplace (b : ObjectBuffer) (ty : CppType) : ObjectBuffer × List BufEvent :=
  let (b1, evs) := if ty.size > b.capacity then b.resize ty.size else b.clear
  ({ b1 with destructor := some ty.tag, info := some ty.tag },
    evs ++ [BufEvent.constructed ty.tag])

end Dynalog

namespace Dynalog

/-! ## Configuration engine (src/include/Configuration.h, src/source/Configuration.cpp) -/

/-- A policy as instantiated through PredicatePolicy: a pure matching
predicate over sites, the emitter and level mask it installs, and pid
modelling the shared_ptr identity used by Configuration::remove. -/
structure Policy where
  pid : Nat
  pred : Nat → Bool
  emitter : Option Nat
  levels : Nat

/-- Membership changes for a policy (Configuration::ChangeSet). -/
structure ChangeSet where
  ins : Finset Nat
  rem : Finset Nat
  man : Finset Nat

/-- ChangeSet::pending. -/
def ChangeSet.pending (cs : ChangeSet) : Bool :=
  decide (cs.rem ≠ ∅) || decide (cs.ins ≠ ∅)

/-- ChangeSet::apply: fold the pending inserts into the managed set
and drop both pending sets. -/
def ChangeSet.applyChanges (cs : ChangeSet) : ChangeSet :=
  { man := cs.man ∪ cs.ins, rem := ∅, ins := ∅ }

/-- ChangeSet::update(Insert, collection). -/
def ChangeSet.updateInsert (cs : ChangeSet) (s : Finset Nat) : ChangeSet :=
  { cs with ins := cs.ins ∪ s }

/-- ChangeSet::update(Remove, collection): erase from managed, add to
the remove set. -/
def ChangeSet.updateRemove (cs : ChangeSet) (s : Finset Nat) : ChangeSet :=
  { cs with man := cs.man \ s, rem := cs.rem ∪ s }

/-- PredicatePolicy::match over a set of sites. -/
def Policy.matchSet (P : Policy) (s : Finset Nat) : Finset Nat :=
  s.filter (fun x => P.pred x)

/-- Per-site mutable state: the atomic emitter reference and the level
mask of each call-site record. -/
structure SiteMap where
  emitterOf : Nat → Option Nat
  levelsOf : Nat → Nat

/-- PredicatePolicy::update: write the policy emitter and levels to
the newly inserted and still-managed sites. Sites in the remove set
are not touched by the source. -/
def Policy.applyUpdate (P : Policy) (cs : ChangeSet) (sm : SiteMap) : SiteMap :=
  { emitterOf := fun x => if x ∈ cs.ins ∨ x ∈ cs.man then P.emitter else sm.emitterOf x,
    levelsOf := fun x => if x ∈ cs.ins ∨ x ∈ cs.man then P.levels else sm.levelsOf x }

/-- One Configuration::Node: a policy and its change set. -/
structure Node where
  policy : Policy
  changes : ChangeSet

/-- Configuration::Node::update: when changes are pending (or forced),
run the policy update callback and collapse the change set. -/
def Node.update (n : Node) (sm : SiteMap) (force : Bool) : Node × SiteMap :=
  if n.changes.pending || force then
    ({ n with changes := n.changes.applyChanges }, n.policy.applyUpdate n.changes sm)
  else
    (n, sm)

/-- Configuration::Node::adopt: take the matched part of an offered
set into the pending inserts, shrinking the offer. -/
def Node.adopt (n : Node) (avail : Finset Nat) : Node × Finset Nat :=
  let matched := n.policy.matchSet avail
  ({ n with changes := n.changes.updateInsert matched }, avail \ matched)

/-- Configuration::Node::override: steal the sites of the other node
matched by this policy. -/
def Node.override (n other : Node) : Node × Node :=
  let matched := n.policy.matchSet other.changes.man
  ({ n with changes := n.changes.updateInsert matched },
    { other with changes := other.changes.updateRemove matched })

/-- Configuration::Node::rescan: re-match the managed set, keeping the
matched sites managed and moving the unmatched ones to the remove
set (swap followed by per-match insert/erase in the source). -/
def Node.rescanSelf (n : Node) : Node :=
  let matched := n.policy.matchSet n.changes.man
  { n with changes :=
    { ins := n.changes.ins,
      man := n.changes.rem ∪ matched,
      rem := n.changes.man \ matched } }

/-- The configuration engine state: nodes keyed by priority, kept in
the descending-priority order of the std::map with std::greater, plus
the per-site state the policies write into. -/
structure Configuration where
  policies : List (Int × Node)
  sites : SiteMap

/-- Update every node of a list in order, threading the site state. -/
def updateAll : List (Int × Node) → SiteMap → List (Int × Node) × SiteMap
  | [], sm => ([], sm)
  | e :: rest, sm =>
      let (n1, sm1) := e.2.update sm false
      let (rest1, sm2) := updateAll rest sm1
      ((e.1, n1) :: rest1, sm2)

/-- The gather loop of Configuration::insert(priority, policy): the
new node steals the matched sites of every lower node in order. -/
def stealFromAll : Node → List (Int × Node) → Node × List (Int × Node)
  | n, [] => (n, [])
  | n, e :: rest =>
      let (n1, l1) := n.override e.2
      let (n2, rest1) := stealFromAll n1 rest
      (n2, (e.1, l1) :: rest1)

/-- The offer loop of Configuration::remove(priority, policy): every
lower node in order steals what it matches from the removed node. -/
def offerToAll : List (Int × Node) → Node → List (Int × Node) × Node
  | [], n => ([], n)
  | e :: rest, n =>
      let (l1, n1) := e.2.override n
      let (rest1, n2) := offerToAll rest n1
      ((e.1, l1) :: rest1, n2)

/-- The scan loop of Configuration::rescan: each lower node adopts
from the orphan set, then the rescanned node steals what it matches
from that lower node. -/
def rescanLoop : Node → List (Int × Node) → Finset Nat →
    Node × List (Int × Node) × Finset Nat
  | n, [], orphans => (n, [], orphans)
  | n, e :: rest, orphans =>
      let (l1, orphans1) := e.2.adopt orphans
      let (n1, l2) := n.override l1
      let (n2, rest1, orphans2) := rescanLoop n1 rest orphans1
      (n2, (e.1, l2) :: rest1, orphans2)

/-- The walk of Configuration::insert(logger): offer the singleton set
to nodes in priority order; the node that exhausts the offer updates
and the walk stops; the result is whether the offer was consumed. -/
def insertLoggerGo : List (Int × Node) → Finset Nat → SiteMap →
    Bool × List (Int × Node) × SiteMap
  | [], _, sm => (false, [], sm)
  | e :: rest, avail, sm =>
      let (n1, avail1) := e.2.adopt avail
      if avail1 = ∅ then
        let (n2, sm1) := n1.update sm false
        (true, (e.1, n2) :: rest, sm1)
      else
        let (b, rest1, sm1) := insertLoggerGo rest avail1 sm
        (b, (e.1, n1) :: rest1, sm1)

/-- Configuration::insert(logger). -/
def Configuration.insertLogger (c : Configuration) (x : Nat) : Bool × Configuration :=
  let (b, ps, sm) := insertLoggerGo c.policies {x} c.sites
  (b, ⟨ps, sm⟩)

/-- The walk of Configuration::remove(logger): the first node managing
the site moves it to the remove set and updates. -/
def removeLoggerGo : List (Int × Node) → Nat → SiteMap →
    Bool × List (Int × Node) × SiteMap
  | [], _, sm => (false, [], sm)
  | e :: rest, x, sm =>
      if x ∈ e.2.changes.man then
        let n1 : Node := { e.2 with changes :=
          { e.2.changes with man := e.2.changes.man.erase x,
                             rem := insert x e.2.changes.rem } }
        let (n2, sm1) := n1.update sm false
        (true, (e.1, n2) :: rest, sm1)
      else
        let (b, rest1, sm1) := removeLoggerGo rest x sm
        (b, (e.1, e.2) :: rest1, sm1)

/-- Configuration::remove(logger). -/
def Configuration.removeLogger (c : Configuration) (x : Nat) : Bool × Configuration :=
  let (b, ps, sm) := removeLoggerGo c.policies x c.sites
  (b, ⟨ps, sm⟩)

/-- Configuration::insert(priority, policy): fail on an occupied
priority; otherwise create the node, steal matched sites from every
lower node, update the lower nodes first and then the new node. -/
def Configuration.insertPolicy (c : Configuration) (p : Int) (P : Policy) :
    Bool × Configuration :=
  if c.policies.any (fun e => e.1 = p) then
    (false, c)
  else
    let higher := c.policies.takeWhile (fun e => p < e.1)
    let lower := c.policies.dropWhile (fun e => p < e.1)
    let (n1, lower1) := stealFromAll ⟨P, ⟨∅, ∅, ∅⟩⟩ lower
    let (lower2, sm1) := updateAll lower1 c.sites
    let (n2, sm2) := n1.update sm1 false
    (true, ⟨higher ++ (p, n2) :: lower2, sm2⟩)

/-- Configuration::remove(priority, policy): fail when the priority is
absent or holds a different policy instance; otherwise offer the
managed sites to lower nodes in order, move the unclaimed rest to the
remove set, update the removed node first and then the lower nodes,
and erase the node. -/
def Configuration.removePolicy (c : Configuration) (p : Int) (P : Policy) :
    Bool × Configuration :=
  let higher := c.policies.takeWhile (fun e => p < e.1)
  match c.policies.dropWhile (fun e => p < e.1) with
  | [] => (false, c)
  | nd :: lower =>
      if nd.1 = p ∧ nd.2.policy.pid = P.pid then
        let (lower1, n1) := offerToAll lower nd.2
        let n2 : Node := { n1 with changes :=
          { n1.changes with rem := n1.changes.rem ∪ n1.changes.man, man := ∅ } }
        let (_, sm1) := n2.update c.sites false
        let (lower2, sm2) := updateAll lower1 sm1
        (true, ⟨higher ++ lower2, sm2⟩)
      else
        (false, c)

/-- Configuration::rescan(priority): re-evaluate the matches of the
node at the priority, let lower nodes adopt its orphans while it
steals their matched sites, run the updates with the pending inserts
of the node held back, then restore those pending inserts. -/
def Configuration.rescan (c : Configuration) (p : Int) : Bool × Configuration :=
  let higher := c.policies.takeWhile (fun e => p < e.1)
  match c.policies.dropWhile (fun e => p < e.1) with
  | [] => (false, c)
  | nd :: lower =>
      if nd.1 = p then
        let n1 := nd.2.rescanSelf
        let orphans := n1.changes.rem
        let (n2, lower1, _) := rescanLoop n1 lower orphans
        let delayed := n2.changes.ins
        let n3 : Node := { n2 with changes := { n2.changes with ins := ∅ } }
        let (n4, sm1) := n3.update c.sites false
        let (lower2, sm2) := updateAll lower1 sm1
        let n5 : Node := { n4 with changes := { n4.changes with ins := delayed } }
        (true, ⟨higher ++ (p, n5) :: lower2, sm2⟩)
      else
        (false, c)

/-- Modelled from the spec: Configuration::update(priority) is
declared in the header but its definition is not among the sources.
The spec says it forces the update callback of the policy at that
priority to be invoked on its entire keep set, used when only the
policy effect (sink or mask) changed. Node::update with force, which
is in the sources, provides exactly that. -/
def Configuration.updatePriority (c : Configuration) (p : Int) : Bool × Configuration :=
  let higher := c.policies.takeWhile (fun e => p < e.1)
  match c.policies.dropWhile (fun e => p < e.1) with
  | [] => (false, c)
  | nd :: lower =>
      if nd.1 = p then
        let (n1, sm1) := nd.2.update c.sites true
        (true, ⟨higher ++ (p, n1) :: lower, sm1⟩)
      else
        (false, c)

/-- One engine mutation, as offered by the public interface. -/
inductive Configuration.Step : Configuration → Configuration → Prop
  | insertLogger (x : Nat) (c : Configuration) : Step c (c.insertLogger x).2
  | removeLogger (x : Nat) (c : Configuration) : Step c (c.removeLogger x).2
  | insertPolicy (p : Int) (P : Policy) (c : Configuration) : Step c (c.insertPolicy p P).2
  | removePolicy (p : Int) (P : Policy) (c : Configuration) : Step c (c.removePolicy p P).2
  | rescan (p : Int) (c : Configuration) : Step c (c.rescan p).2
  | updatePriority (p : Int) (c : Configuration) : Step c (c.updatePriority p).2

/-- States reachable from a freshly constructed engine (no policies)
by any sequence of engine operations. -/
inductive Configuration.Reachable : Configuration → Prop
  | init (sm : SiteMap) : Reachable ⟨[], sm⟩
  | step {c c' : Configuration} : Reachable c → Configuration.Step c c' → Reachable c'

/-! ## Engine invariant and supporting lemmas -/

/-- Result of Node::update on the node itself (independent of the
site state). -/
def Node.afterUpdate (n : Node) : Node :=
  if n.changes.pending then { n with changes := n.changes.applyChanges } else n

/-- Sites matched away from the lower nodes by a newly inserted
policy, taken over the whole lower list. -/
def stolenSet (P : Policy) : List (Int × Node) → Finset Nat
  | [] => ∅
  | e :: rest => P.matchSet e.2.changes.man ∪ stolenSet P rest

/-- First entry of the list whose policy matches the site, mirroring
the descending priority walk of the engine. -/
def firstMatcher : List (Int × Node) → Nat → Option (Int × Node)
  | [], _ => none
  | e :: rest, y => if e.2.policy.pred y then some e else firstMatcher rest y

/-- The engine invariant: nodes sorted by strictly descending
priority, no pending change sets between operations, every managed
site matched by its owner, no strictly higher priority policy matching
an owned site, and per-site state agreeing with the owning policy. -/
structure Inv (c : Configuration) : Prop where
  sorted : c.policies.Pairwise (fun a b => b.1 < a.1)
  rest : ∀ e ∈ c.policies, e.2.changes.ins = ∅ ∧ e.2.changes.rem = ∅
  owned : ∀ e ∈ c.policies, ∀ x ∈ e.2.changes.man, e.2.policy.pred x = true
  highest : ∀ e ∈ c.policies, ∀ f ∈ c.policies, e.1 < f.1 →
    ∀ x ∈ e.2.changes.man, f.2.policy.pred x = false
  consistent : ∀ e ∈ c.policies, ∀ x ∈ e.2.changes.man,
    c.sites.emitterOf x = e.2.policy.emitter ∧ c.sites.levelsOf x = e.2.policy.levels

theorem pending_false_iff (cs : ChangeSet) :
    cs.pending = false ↔ cs.rem = ∅ ∧ cs.ins = ∅ := by
  simp [ChangeSet.pending, and_comm]

theorem Node.update_fst (n : Node) (sm : SiteMap) (f : Bool) :
    (n.update sm f).1 =
      if (n.changes.pending || f) = true then { n with changes := n.changes.applyChanges }
      else n := by
  unfold Node.update
  split <;> rfl

theorem Node.update_snd (n : Node) (sm : SiteMap) (f : Bool) :
    (n.update sm f).2 =
      if (n.changes.pending || f) = true then n.policy.applyUpdate n.changes sm
      else sm := by
  unfold Node.update
  split <;> rfl

theorem Node.update_false_fst (n : Node) (sm : SiteMap) :
    (n.update sm false).1 = n.afterUpdate := by
  simp [Node.update_fst, Node.afterUpdate]

theorem applyUpdate_emitterOf (P : Policy) (cs : ChangeSet) (sm : SiteMap) (y : Nat) :
    (P.applyUpdate cs sm).emitterOf y =
      if y ∈ cs.ins ∨ y ∈ cs.man then P.emitter else sm.emitterOf y := rfl

theorem applyUpdate_levelsOf (P : Policy) (cs : ChangeSet) (sm : SiteMap) (y : Nat) :
    (P.applyUpdate cs sm).levelsOf y =
      if y ∈ cs.ins ∨ y ∈ cs.man then P.levels else sm.levelsOf y := rfl

theorem keys_unique {l : List (Int × Node)}
    (h : l.Pairwise (fun a b => b.1 < a.1)) :
    ∀ e ∈ l, ∀ f ∈ l, e.1 = f.1 → e = f := by
  induction l with
  | nil => intro e he; cases he
  | cons hd tl ih =>
      intro e he f hf hef
      rcases List.mem_cons.mp he with rfl | he <;>
        rcases List.mem_cons.mp hf with h2 | hf2
      · rw [h2]
      · exact absurd (hef ▸ (List.pairwise_cons.mp h).1 f hf2) (lt_irrefl _)
      · exact absurd (hef ▸ (List.pairwise_cons.mp h).1 e he) (by rw [h2]; exact lt_irrefl _)
      · exact ih (List.pairwise_cons.mp h).2 e he f hf2 hef

theorem Inv.manageDisjoint {c : Configuration} (hI : Inv c) :
    ∀ e ∈ c.policies, ∀ f ∈ c.policies, ∀ x,
      x ∈ e.2.changes.man → x ∈ f.2.changes.man → e = f := by
  intro e he f hf x hxe hxf
  rcases lt_trichotomy e.1 f.1 with hlt | heq | hgt
  · exact absurd (hI.owned f hf x hxf) (by simp [hI.highest e he f hf hlt x hxe])
  · exact keys_unique hI.sorted e he f hf heq
  · exact absurd (hI.owned e he x hxe) (by simp [hI.highest f hf e he hgt x hxf])

/-! ### Characterization of the logger walks -/

theorem insertLoggerGo_no_match (x : Nat) :
    ∀ (ls : List (Int × Node)) (sm : SiteMap),
      (∀ e ∈ ls, e.2.policy.pred x = false) →
      insertLoggerGo ls {x} sm = (false, ls, sm) := by
  intro ls
  induction ls with
  | nil => intro sm _; rfl
  | cons e rest ih =>
      intro sm hpred
      have hped : e.2.policy.pred x = false := hpred e (List.mem_cons_self e rest)
      have hmatch : e.2.policy.matchSet {x} = ∅ := by
        simp [Policy.matchSet, Finset.filter_singleton, hped]
      have hrest := ih sm (fun f hf => hpred f (List.mem_cons_of_mem e hf))
      simp [insertLoggerGo, Node.adopt, hmatch, ChangeSet.updateInsert, hrest,
        Finset.singleton_ne_empty]

theorem insertLoggerGo_claim (x : Nat) :
    ∀ (l1 : List (Int × Node)) (e : Int × Node) (l2 : List (Int × Node)) (sm : SiteMap),
      (∀ f ∈ l1, f.2.policy.pred x = false) →
      e.2.policy.pred x = true →
      e.2.changes.ins = ∅ → e.2.changes.rem = ∅ →
      insertLoggerGo (l1 ++ e :: l2) {x} sm =
        (true,
          l1 ++ (e.1, Node.mk e.2.policy ⟨∅, ∅, e.2.changes.man ∪ {x}⟩) :: l2,
          e.2.policy.applyUpdate ⟨{x}, ∅, e.2.changes.man⟩ sm) := by
  intro l1
  induction l1 with
  | nil =>
      intro e l2 sm _ hpe hins hrem
      have hmatch : e.2.policy.matchSet {x} = {x} := by
        simp [Policy.matchSet, Finset.filter_singleton, hpe]
      simp only [List.nil_append, insertLoggerGo, Node.adopt, hmatch,
        ChangeSet.updateInsert, Finset.sdiff_self, if_pos rfl]
      simp [Node.update, ChangeSet.pending, ChangeSet.applyChanges, hins, hrem,
        Finset.empty_union, Finset.union_comm]
  | cons f rest ih =>
      intro e l2 sm hl1 hpe hins hrem
      have hpf : f.2.policy.pred x = false := hl1 f (List.mem_cons_self f rest)
      have hmatch : f.2.policy.matchSet {x} = ∅ := by
        simp [Policy.matchSet, Finset.filter_singleton, hpf]
      have hrest := ih e l2 sm (fun g hg => hl1 g (List.mem_cons_of_mem f hg)) hpe hins hrem
      simp [insertLoggerGo, Node.adopt, hmatch, ChangeSet.updateInsert, hrest,
        Finset.singleton_ne_empty]

theorem removeLoggerGo_no_owner (x : Nat) :
    ∀ (ls : List (Int × Node)) (sm : SiteMap),
      (∀ e ∈ ls, x ∉ e.2.changes.man) →
      removeLoggerGo ls x sm = (false, ls, sm) := by
  intro ls
  induction ls with
  | nil => intro sm _; rfl
  | cons e rest ih =>
      intro sm hmem
      have hx : x ∉ e.2.changes.man := hmem e (List.mem_cons_self e rest)
      have hrest := ih sm (fun f hf => hmem f (List.mem_cons_of_mem e hf))
      simp [removeLoggerGo, hx, hrest]

theorem removeLoggerGo_owner (x : Nat) :
    ∀ (l1 : List (Int × Node)) (e : Int × Node) (l2 : List (Int × Node)) (sm : SiteMap),
      (∀ f ∈ l1, x ∉ f.2.changes.man) →
      x ∈ e.2.changes.man →
      e.2.changes.ins = ∅ → e.2.changes.rem = ∅ →
      removeLoggerGo (l1 ++ e :: l2) x sm =
        (true,
          l1 ++ (e.1, Node.mk e.2.policy ⟨∅, ∅, e.2.changes.man.erase x⟩) :: l2,
          e.2.policy.applyUpdate ⟨∅, {x}, e.2.changes.man.erase x⟩ sm) := by
  intro l1
  induction l1 with
  | nil =>
      intro e l2 sm _ hx hins hrem
      simp only [List.nil_append, removeLoggerGo, if_pos hx]
      simp [Node.update, ChangeSet.pending, ChangeSet.applyChanges, hins, hrem,
        Finset.union_empty]
  | cons f rest ih =>
      intro e l2 sm hl1 hx hins hrem
      have hxf : x ∉ f.2.changes.man := hl1 f (List.mem_cons_self f rest)
      have hrest := ih e l2 sm (fun g hg => hl1 g (List.mem_cons_of_mem f hg)) hx hins hrem
      simp [removeLoggerGo, hxf, hrest]

theorem exists_first_split {α : Type} (p : α → Prop) (ls : List α) :
    (∀ e ∈ ls, ¬ p e) ∨
      ∃ l1 e l2, ls = l1 ++ e :: l2 ∧ (∀ f ∈ l1, ¬ p f) ∧ p e := by
  induction ls with
  | nil => exact Or.inl (by intro e he; cases he)
  | cons hd tl ih =>
      by_cases hp : p hd
      · exact Or.inr ⟨[], hd, tl, rfl, fun f hf => absurd hf (List.not_mem_nil f), hp⟩
      · rcases ih with hnone | ⟨l1, e, l2, rfl, hl1, hpe⟩
        · refine Or.inl ?_
          intro e he
          rcases List.mem_cons.mp he with rfl | he
          · exact hp
          · exact hnone e he
        · refine Or.inr ⟨hd :: l1, e, l2, rfl, ?_, hpe⟩
          intro f hf
          rcases List.mem_cons.mp hf with rfl | hf
          · exact hp
          · exact hl1 f hf

theorem pairwise_congr_middle (l1 l2 : List (Int × Node)) (e f : Int × Node)
    (hk : f.1 = e.1) (h : (l1 ++ e :: l2).Pairwise (fun a b => b.1 < a.1)) :
    (l1 ++ f :: l2).Pairwise (fun a b => b.1 < a.1) := by
  rw [List.pairwise_append] at h ⊢
  refine ⟨h.1, ?_, ?_⟩
  · rw [List.pairwise_cons]
    rw [List.pairwise_cons] at h
    refine ⟨?_, h.2.1.2⟩
    intro b hb
    rw [hk]
    exact h.2.1.1 b hb
  · intro a ha b hb
    rcases List.mem_cons.mp hb with rfl | hb
    · rw [hk]
      exact h.2.2 a ha e (List.mem_cons_self e l2)
    · exact h.2.2 a ha b (List.mem_cons_of_mem e hb)

theorem sorted_middle_left {l1 l2 : List (Int × Node)} {e : Int × Node}
    (h : (l1 ++ e :: l2).Pairwise (fun a b => b.1 < a.1)) :
    ∀ f ∈ l1, e.1 < f.1 := by
  rw [List.pairwise_append] at h
  intro f hf
  exact h.2.2 f hf e (List.mem_cons_self e l2)

theorem sorted_middle_right {l1 l2 : List (Int × Node)} {e : Int × Node}
    (h : (l1 ++ e :: l2).Pairwise (fun a b => b.1 < a.1)) :
    ∀ f ∈ l2, f.1 < e.1 := by
  rw [List.pairwise_append, List.pairwise_cons] at h
  exact h.2.1.1

theorem inv_insertLogger {c : Configuration} (hI : Inv c) (x : Nat) :
    Inv (c.insertLogger x).2 := by
  rcases exists_first_split (fun e : Int × Node => e.2.policy.pred x = true) c.policies with
    hnone | ⟨l1, e, l2, hsplit, hl1, hpe⟩
  · have hfn : ∀ e ∈ c.policies, e.2.policy.pred x = false := by
      intro e he
      simpa using hnone e he
    simp only [Configuration.insertLogger, insertLoggerGo_no_match x c.policies c.sites hfn]
    exact hI
  · have hemem : e ∈ c.policies := by
      rw [hsplit]; exact List.mem_append_right l1 (List.mem_cons_self e l2)
    obtain ⟨hins, hrem⟩ := hI.rest e hemem
    have hl1' : ∀ f ∈ l1, f.2.policy.pred x = false := by
      intro f hf
      simpa using hl1 f hf
    have hsorted0 : (l1 ++ e :: l2).Pairwise (fun a b => b.1 < a.1) := hsplit ▸ hI.sorted
    have hold1 : ∀ f ∈ l1, f ∈ c.policies := by
      intro f hf; rw [hsplit]; exact List.mem_append_left _ hf
    have hold2 : ∀ f ∈ l2, f ∈ c.policies := by
      intro f hf; rw [hsplit]
      exact List.mem_append_right _ (List.mem_cons_of_mem e hf)
    have hneq1 : ∀ f ∈ l1, f ≠ e := by
      intro f hf heq
      exact absurd (sorted_middle_left hsorted0 f hf) (by rw [heq]; exact lt_irrefl _)
    have hneq2 : ∀ f ∈ l2, f ≠ e := by
      intro f hf heq
      exact absurd (sorted_middle_right hsorted0 f hf) (by rw [heq]; exact lt_irrefl _)
    have honly : ∀ f ∈ c.policies, x ∈ f.2.changes.man → f = e := by
      intro f hf hxf
      have hpfx := hI.owned f hf x hxf
      have hfs : f ∈ l1 ++ e :: l2 := hsplit ▸ hf
      rcases List.mem_append.mp hfs with hf1 | hf2
      · rw [hl1' f hf1] at hpfx; cases hpfx
      · rcases List.mem_cons.mp hf2 with heq | hf2
        · exact heq
        · have hlt : f.1 < e.1 := sorted_middle_right hsorted0 f hf2
          have hfalse := hI.highest f hf e hemem hlt x hxf
          rw [hpe] at hfalse; cases hfalse
    have hgo := insertLoggerGo_claim x l1 e l2 c.sites hl1' hpe hins hrem
    have hc' : (c.insertLogger x).2 =
        ⟨l1 ++ (e.1, Node.mk e.2.policy ⟨∅, ∅, e.2.changes.man ∪ {x}⟩) :: l2,
          e.2.policy.applyUpdate ⟨{x}, ∅, e.2.changes.man⟩ c.sites⟩ := by
      simp only [Configuration.insertLogger, hsplit, hgo]
    rw [hc']
    constructor
    · exact pairwise_congr_middle l1 l2 e
        (e.1, Node.mk e.2.policy ⟨∅, ∅, e.2.changes.man ∪ {x}⟩) rfl hsorted0
    · intro f hf
      rcases List.mem_append.mp hf with hf1 | hf2
      · exact hI.rest f (hold1 f hf1)
      · rcases List.mem_cons.mp hf2 with rfl | hf2
        · exact ⟨rfl, rfl⟩
        · exact hI.rest f (hold2 f hf2)
    · intro f hf y hy
      rcases List.mem_append.mp hf with hf1 | hf2
      · exact hI.owned f (hold1 f hf1) y hy
      · rcases List.mem_cons.mp hf2 with rfl | hf2
        · rcases Finset.mem_union.mp hy with hy1 | hy2
          · exact hI.owned e hemem y hy1
          · rw [Finset.mem_singleton.mp hy2]; exact hpe
        · exact hI.owned f (hold2 f hf2) y hy
    · intro a ha f hf hlt y hy
      rcases List.mem_append.mp ha with ha1 | ha2
      · -- a in l1: a is an unchanged old node
        have haold := hold1 a ha1
        rcases List.mem_append.mp hf with hf1 | hf2
        · exact hI.highest a haold f (hold1 f hf1) hlt y hy
        · rcases List.mem_cons.mp hf2 with rfl | hf2
          · exact absurd hlt (not_lt.mpr (le_of_lt (sorted_middle_left hsorted0 a ha1)))
          · exact hI.highest a haold f (hold2 f hf2) hlt y hy
      · rcases List.mem_cons.mp ha2 with rfl | ha2
        · -- a is the claiming node
          rcases List.mem_append.mp hf with hf1 | hf2
          · rcases Finset.mem_union.mp hy with hy1 | hy2
            · exact hI.highest e hemem f (hold1 f hf1) hlt y hy1
            · rw [Finset.mem_singleton.mp hy2]; exact hl1' f hf1
          · rcases List.mem_cons.mp hf2 with rfl | hf2
            · exact absurd hlt (lt_irrefl _)
            · exact absurd hlt (not_lt.mpr (le_of_lt (sorted_middle_right hsorted0 f hf2)))
        · -- a in l2: unchanged old node
          have haold := hold2 a ha2
          rcases List.mem_append.mp hf with hf1 | hf2
          · exact hI.highest a haold f (hold1 f hf1) hlt y hy
          · rcases List.mem_cons.mp hf2 with rfl | hf2
            · exact hI.highest a haold e hemem hlt y hy
            · exact hI.highest a haold f (hold2 f hf2) hlt y hy
    · intro f hf y hy
      rcases List.mem_append.mp hf with hf1 | hf2
      · -- unchanged node in l1: the write set avoids its sites
        have hfold := hold1 f hf1
        have hcond : ¬ (y ∈ ({x} : Finset Nat) ∨ y ∈ e.2.changes.man) := by
          rintro (hy1 | hy2)
          · rw [Finset.mem_singleton.mp hy1] at hy
            exact hneq1 f hf1 (honly f hfold hy)
          · exact hneq1 f hf1 (hI.manageDisjoint f hfold e hemem y hy hy2)
        simp only [applyUpdate_emitterOf, applyUpdate_levelsOf]
        simp only [if_neg hcond]
        exact hI.consistent f hfold y hy
      · rcases List.mem_cons.mp hf2 with rfl | hf2
        · have hcond : y ∈ ({x} : Finset Nat) ∨ y ∈ e.2.changes.man := by
            rcases Finset.mem_union.mp hy with hy1 | hy2
            · exact Or.inr hy1
            · exact Or.inl hy2
          simp only [applyUpdate_emitterOf, applyUpdate_levelsOf]
          simp only [if_pos hcond]
          exact ⟨trivial, trivial⟩
        · have hfold := hold2 f hf2
          have hcond : ¬ (y ∈ ({x} : Finset Nat) ∨ y ∈ e.2.changes.man) := by
            rintro (hy1 | hy2)
            · rw [Finset.mem_singleton.mp hy1] at hy
              exact hneq2 f hf2 (honly f hfold hy)
            · exact hneq2 f hf2 (hI.manageDisjoint f hfold e hemem y hy hy2)
          simp only [applyUpdate_emitterOf, applyUpdate_levelsOf]
          simp only [if_neg hcond]
          exact hI.consistent f hfold y hy

theorem inv_removeLogger {c : Configuration} (hI : Inv c) (x : Nat) :
    Inv (c.removeLogger x).2 := by
  rcases exists_first_split (fun e : Int × Node => x ∈ e.2.changes.man) c.policies with
    hnone | ⟨l1, e, l2, hsplit, hl1, hxe⟩
  · simp only [Configuration.removeLogger, removeLoggerGo_no_owner x c.policies c.sites hnone]
    exact hI
  · have hemem : e ∈ c.policies := by
      rw [hsplit]; exact List.mem_append_right l1 (List.mem_cons_self e l2)
    obtain ⟨hins, hrem⟩ := hI.rest e hemem
    have hsorted0 : (l1 ++ e :: l2).Pairwise (fun a b => b.1 < a.1) := hsplit ▸ hI.sorted
    have hold1 : ∀ f ∈ l1, f ∈ c.policies := by
      intro f hf; rw [hsplit]; exact List.mem_append_left _ hf
    have hold2 : ∀ f ∈ l2, f ∈ c.policies := by
      intro f hf; rw [hsplit]
      exact List.mem_append_right _ (List.mem_cons_of_mem e hf)
    have hneq1 : ∀ f ∈ l1, f ≠ e := by
      intro f hf heq
      exact absurd (sorted_middle_left hsorted0 f hf) (by rw [heq]; exact lt_irrefl _)
    have hneq2 : ∀ f ∈ l2, f ≠ e := by
      intro f hf heq
      exact absurd (sorted_middle_right hsorted0 f hf) (by rw [heq]; exact lt_irrefl _)
    have hgo := removeLoggerGo_owner x l1 e l2 c.sites hl1 hxe hins hrem
    have hc' : (c.removeLogger x).2 =
        ⟨l1 ++ (e.1, Node.mk e.2.policy ⟨∅, ∅, e.2.changes.man.erase x⟩) :: l2,
          e.2.policy.applyUpdate ⟨∅, {x}, e.2.changes.man.erase x⟩ c.sites⟩ := by
      simp only [Configuration.removeLogger, hsplit, hgo]
    rw [hc']
    constructor
    · exact pairwise_congr_middle l1 l2 e
        (e.1, Node.mk e.2.policy ⟨∅, ∅, e.2.changes.man.erase x⟩) rfl hsorted0
    · intro f hf
      rcases List.mem_append.mp hf with hf1 | hf2
      · exact hI.rest f (hold1 f hf1)
      · rcases List.mem_cons.mp hf2 with rfl | hf2
        · exact ⟨rfl, rfl⟩
        · exact hI.rest f (hold2 f hf2)
    · intro f hf y hy
      rcases List.mem_append.mp hf with hf1 | hf2
      · exact hI.owned f (hold1 f hf1) y hy
      · rcases List.mem_cons.mp hf2 with rfl | hf2
        · exact hI.owned e hemem y (Finset.mem_of_mem_erase hy)
        · exact hI.owned f (hold2 f hf2) y hy
    · intro a ha f hf hlt y hy
      rcases List.mem_append.mp ha with ha1 | ha2
      · have haold := hold1 a ha1
        rcases List.mem_append.mp hf with hf1 | hf2
        · exact hI.highest a haold f (hold1 f hf1) hlt y hy
        · rcases List.mem_cons.mp hf2 with rfl | hf2
          · exact absurd hlt (not_lt.mpr (le_of_lt (sorted_middle_left hsorted0 a ha1)))
          · exact hI.highest a haold f (hold2 f hf2) hlt y hy
      · rcases List.mem_cons.mp ha2 with rfl | ha2
        · rcases List.mem_append.mp hf with hf1 | hf2
          · exact hI.highest e hemem f (hold1 f hf1) hlt y (Finset.mem_of_mem_erase hy)
          · rcases List.mem_cons.mp hf2 with rfl | hf2
            · exact absurd hlt (lt_irrefl _)
            · exact absurd hlt (not_lt.mpr (le_of_lt (sorted_middle_right hsorted0 f hf2)))
        · have haold := hold2 a ha2
          rcases List.mem_append.mp hf with hf1 | hf2
          · exact hI.highest a haold f (hold1 f hf1) hlt y hy
          · rcases List.mem_cons.mp hf2 with rfl | hf2
            · exact hI.highest a haold e hemem hlt y hy
            · exact hI.highest a haold f (hold2 f hf2) hlt y hy
    · intro f hf y hy
      rcases List.mem_append.mp hf with hf1 | hf2
      · have hfold := hold1 f hf1
        have hcond : ¬ (y ∈ (∅ : Finset Nat) ∨ y ∈ e.2.changes.man.erase x) := by
          rintro (hy1 | hy2)
          · exact absurd hy1 (Finset.not_mem_empty y)
          · exact hneq1 f hf1
              (hI.manageDisjoint f hfold e hemem y hy (Finset.mem_of_mem_erase hy2))
        simp only [applyUpdate_emitterOf, applyUpdate_levelsOf]
        simp only [if_neg hcond]
        exact hI.consistent f hfold y hy
      · rcases List.mem_cons.mp hf2 with rfl | hf2
        · have hcond : y ∈ (∅ : Finset Nat) ∨ y ∈ e.2.changes.man.erase x := Or.inr hy
          simp only [applyUpdate_emitterOf, applyUpdate_levelsOf]
          simp only [if_pos hcond]
          exact ⟨trivial, trivial⟩
        · have hfold := hold2 f hf2
          have hcond : ¬ (y ∈ (∅ : Finset Nat) ∨ y ∈ e.2.changes.man.erase x) := by
            rintro (hy1 | hy2)
            · exact absurd hy1 (Finset.not_mem_empty y)
            · exact hneq2 f hf2
                (hI.manageDisjoint f hfold e hemem y hy (Finset.mem_of_mem_erase hy2))
          simp only [applyUpdate_emitterOf, applyUpdate_levelsOf]
          simp only [if_neg hcond]
          exact hI.consistent f hfold y hy

/-! ### Characterization of the policy insertion walk -/

theorem mem_stolenSet (P : Policy) (y : Nat) :
    ∀ ls : List (Int × Node),
      y ∈ stolenSet P ls ↔ ∃ e ∈ ls, y ∈ P.matchSet e.2.changes.man := by
  intro ls
  induction ls with
  | nil => simp [stolenSet]
  | cons e rest ih =>
      simp only [stolenSet, Finset.mem_union, ih, List.mem_cons]
      constructor
      · rintro (hy | ⟨f, hf, hyf⟩)
        · exact ⟨e, Or.inl rfl, hy⟩
        · exact ⟨f, Or.inr hf, hyf⟩
      · rintro ⟨f, rfl | hf, hyf⟩
        · exact Or.inl hyf
        · exact Or.inr ⟨f, hf, hyf⟩

theorem stealFromAll_fst :
    ∀ (ls : List (Int × Node)) (n : Node),
      (stealFromAll n ls).1 =
        Node.mk n.policy
          ⟨n.changes.ins ∪ stolenSet n.policy ls, n.changes.rem, n.changes.man⟩ := by
  intro ls
  induction ls with
  | nil => intro n; simp [stealFromAll, stolenSet]
  | cons e rest ih =>
      intro n
      simp only [stealFromAll, Node.override, ChangeSet.updateInsert, ih]
      simp [stolenSet, Finset.union_assoc]

theorem stealFromAll_snd :
    ∀ (ls : List (Int × Node)) (n : Node),
      (stealFromAll n ls).2 =
        ls.map (fun e => (e.1,
          Node.mk e.2.policy (e.2.changes.updateRemove
            (n.policy.matchSet e.2.changes.man)))) := by
  intro ls
  induction ls with
  | nil => intro n; rfl
  | cons e rest ih =>
      intro n
      simp only [stealFromAll, Node.override, ChangeSet.updateInsert, ih, List.map_cons]

theorem updateAll_fst :
    ∀ (ls : List (Int × Node)) (sm : SiteMap),
      (updateAll ls sm).1 = ls.map (fun e => (e.1, e.2.afterUpdate)) := by
  intro ls
  induction ls with
  | nil => intro sm; rfl
  | cons e rest ih =>
      intro sm
      simp only [updateAll, Node.update_false_fst, ih, List.map_cons]

theorem updateAll_consistent :
    ∀ (ls : List (Int × Node)) (sm : SiteMap),
      (∀ e ∈ ls, ∀ z ∈ e.2.changes.ins ∪ e.2.changes.man,
        sm.emitterOf z = e.2.policy.emitter ∧ sm.levelsOf z = e.2.policy.levels) →
      ∀ y, (updateAll ls sm).2.emitterOf y = sm.emitterOf y ∧
        (updateAll ls sm).2.levelsOf y = sm.levelsOf y := by
  intro ls
  induction ls with
  | nil => intro sm _ y; exact ⟨rfl, rfl⟩
  | cons e rest ih =>
      intro sm hcons y
      have hsm1 : ∀ z, (e.2.update sm false).2.emitterOf z = sm.emitterOf z ∧
          (e.2.update sm false).2.levelsOf z = sm.levelsOf z := by
        intro z
        rw [Node.update_snd]
        split
        · simp only [applyUpdate_emitterOf, applyUpdate_levelsOf]
          by_cases hz : z ∈ e.2.changes.ins ∨ z ∈ e.2.changes.man
          · obtain ⟨h1, h2⟩ := hcons e (List.mem_cons_self e rest) z
              (Finset.mem_union.mpr hz)
            simp [if_pos hz, h1, h2]
          · simp [if_neg hz]
        · exact ⟨rfl, rfl⟩
      have hrest : ∀ f ∈ rest, ∀ z ∈ f.2.changes.ins ∪ f.2.changes.man,
          (e.2.update sm false).2.emitterOf z = f.2.policy.emitter ∧
          (e.2.update sm false).2.levelsOf z = f.2.policy.levels := by
        intro f hf z hz
        obtain ⟨h1, h2⟩ := hcons f (List.mem_cons_of_mem e hf) z hz
        rw [(hsm1 z).1, (hsm1 z).2]
        exact ⟨h1, h2⟩
      have hih := ih (e.2.update sm false).2 hrest y
      simp only [updateAll]
      rw [hih.1, hih.2, (hsm1 y).1, (hsm1 y).2]
      exact ⟨rfl, rfl⟩

theorem afterUpdate_steal (P : Policy) (n : Node)
    (hins : n.changes.ins = ∅) (hrem : n.changes.rem = ∅) :
    (Node.mk n.policy (n.changes.updateRemove (P.matchSet n.changes.man))).afterUpdate =
      Node.mk n.policy ⟨∅, ∅, n.changes.man \ P.matchSet n.changes.man⟩ := by
  by_cases hm : P.matchSet n.changes.man = ∅ <;>
    simp [Node.afterUpdate, ChangeSet.updateRemove, ChangeSet.pending,
      ChangeSet.applyChanges, hins, hrem, hm]

theorem afterUpdate_fresh (P : Policy) (s : Finset Nat) :
    (Node.mk P ⟨s, ∅, ∅⟩).afterUpdate = Node.mk P ⟨∅, ∅, s⟩ := by
  by_cases hs : s = ∅ <;>
    simp [Node.afterUpdate, ChangeSet.pending, ChangeSet.applyChanges, hs]

theorem insertPolicy_spec (c : Configuration) (p : Int) (P : Policy)
    (hI : Inv c) (hfresh : ∀ e ∈ c.policies, e.1 ≠ p) :
    (c.insertPolicy p P).1 = true ∧
    (c.insertPolicy p P).2.policies =
      c.policies.takeWhile (fun e => p < e.1) ++
        (p, Node.mk P ⟨∅, ∅,
            stolenSet P (c.policies.dropWhile (fun e => p < e.1))⟩) ::
        (c.policies.dropWhile (fun e => p < e.1)).map
          (fun e => (e.1, Node.mk e.2.policy
            ⟨∅, ∅, e.2.changes.man \ P.matchSet e.2.changes.man⟩)) ∧
    (∀ y ∈ stolenSet P (c.policies.dropWhile (fun e => p < e.1)),
      (c.insertPolicy p P).2.sites.emitterOf y = P.emitter ∧
      (c.insertPolicy p P).2.sites.levelsOf y = P.levels) ∧
    (∀ y, y ∉ stolenSet P (c.policies.dropWhile (fun e => p < e.1)) →
      (c.insertPolicy p P).2.sites.emitterOf y = c.sites.emitterOf y ∧
      (c.insertPolicy p P).2.sites.levelsOf y = c.sites.levelsOf y) := by
  have hguard : (c.policies.any fun e => e.1 = p) = false := by
    simp only [List.any_eq_false, decide_eq_true_eq]
    exact hfresh
  have hlowmem : ∀ e ∈ c.policies.dropWhile (fun e => p < e.1), e ∈ c.policies := by
    intro e he
    exact (List.dropWhile_sublist _).subset he
  have hlrest : ∀ e ∈ c.policies.dropWhile (fun e => p < e.1),
      e.2.changes.ins = ∅ ∧ e.2.changes.rem = ∅ := by
    intro e he
    exact hI.rest e (hlowmem e he)
  have hsteal1 := stealFromAll_fst (c.policies.dropWhile (fun e => p < e.1))
    (Node.mk P ⟨∅, ∅, ∅⟩)
  have hsteal2 := stealFromAll_snd (c.policies.dropWhile (fun e => p < e.1))
    (Node.mk P ⟨∅, ∅, ∅⟩)
  have hcons0 : ∀ e ∈ (stealFromAll (Node.mk P ⟨∅, ∅, ∅⟩)
        (c.policies.dropWhile (fun e => p < e.1))).2,
      ∀ z ∈ e.2.changes.ins ∪ e.2.changes.man,
        c.sites.emitterOf z = e.2.policy.emitter ∧
        c.sites.levelsOf z = e.2.policy.levels := by
    rw [hsteal2]
    intro e he z hz
    obtain ⟨e0, he0, rfl⟩ := List.mem_map.mp he
    obtain ⟨hi0, hr0⟩ := hlrest e0 he0
    simp only [ChangeSet.updateRemove, hi0, Finset.empty_union] at hz
    exact hI.consistent e0 (hlowmem e0 he0) z (Finset.mem_sdiff.mp hz).1
  have hsm1 := updateAll_consistent
    (stealFromAll (Node.mk P ⟨∅, ∅, ∅⟩) (c.policies.dropWhile (fun e => p < e.1))).2
    c.sites hcons0
  have hlower2 : (updateAll (stealFromAll (Node.mk P ⟨∅, ∅, ∅⟩)
        (c.policies.dropWhile (fun e => p < e.1))).2 c.sites).1 =
      (c.policies.dropWhile (fun e => p < e.1)).map
        (fun e => (e.1, Node.mk e.2.policy
          ⟨∅, ∅, e.2.changes.man \ P.matchSet e.2.changes.man⟩)) := by
    rw [updateAll_fst, hsteal2, List.map_map]
    refine List.map_congr_left ?_
    intro e he
    obtain ⟨hi0, hr0⟩ := hlrest e he
    simp only [Function.comp]
    rw [afterUpdate_steal P e.2 hi0 hr0]
  have hn1 : (stealFromAll (Node.mk P ⟨∅, ∅, ∅⟩)
        (c.policies.dropWhile (fun e => p < e.1))).1 =
      Node.mk P ⟨stolenSet P (c.policies.dropWhile (fun e => p < e.1)), ∅, ∅⟩ := by
    rw [hsteal1]
    simp
  have hstep : c.insertPolicy p P =
      (true,
        ⟨c.policies.takeWhile (fun e => p < e.1) ++
          (p, ((stealFromAll (Node.mk P ⟨∅, ∅, ∅⟩)
              (c.policies.dropWhile (fun e => p < e.1))).1.update
            (updateAll (stealFromAll (Node.mk P ⟨∅, ∅, ∅⟩)
              (c.policies.dropWhile (fun e => p < e.1))).2 c.sites).2 false).1) ::
          (updateAll (stealFromAll (Node.mk P ⟨∅, ∅, ∅⟩)
            (c.policies.dropWhile (fun e => p < e.1))).2 c.sites).1,
        ((stealFromAll (Node.mk P ⟨∅, ∅, ∅⟩)
            (c.policies.dropWhile (fun e => p < e.1))).1.update
          (updateAll (stealFromAll (Node.mk P ⟨∅, ∅, ∅⟩)
            (c.policies.dropWhile (fun e => p < e.1))).2 c.sites).2 false).2⟩) := by
    simp only [Configuration.insertPolicy, hguard, Bool.false_eq_true, if_false]
  refine ⟨by rw [hstep], ?_, ?_, ?_⟩
  · rw [hstep]
    simp only [hn1, Node.update_fst, Node.afterUpdate, hlower2]
    by_cases hs : stolenSet P (c.policies.dropWhile (fun e => p < e.1)) = ∅ <;>
      simp [ChangeSet.pending, ChangeSet.applyChanges, hs]
  · intro y hy
    rw [hstep]
    simp only [hn1, Node.update_snd]
    have hpend : (ChangeSet.mk
        (stolenSet P (c.policies.dropWhile (fun e => p < e.1))) ∅ ∅).pending = true := by
      simp only [ChangeSet.pending]
      have : stolenSet P (c.policies.dropWhile (fun e => p < e.1)) ≠ ∅ := by
        intro h0
        rw [h0] at hy
        exact absurd hy (Finset.not_mem_empty y)
      simp [this]
    rw [if_pos (by simp [hpend])]
    simp only [applyUpdate_emitterOf, applyUpdate_levelsOf]
    rw [if_pos (Or.inl hy), if_pos (Or.inl hy)]
    exact ⟨rfl, rfl⟩
  · intro y hy
    rw [hstep]
    simp only [hn1, Node.update_snd]
    have hcond : ¬ (y ∈ stolenSet P (c.policies.dropWhile (fun e => p < e.1)) ∨
        y ∈ (∅ : Finset Nat)) := by
      rintro (h | h)
      · exact hy h
      · exact absurd h (Finset.not_mem_empty y)
    split
    · simp only [applyUpdate_emitterOf, applyUpdate_levelsOf]
      rw [if_neg hcond, if_neg hcond]
      exact hsm1 y
    · exact hsm1 y

theorem mem_takeWhile_gt (p : Int) (l : List (Int × Node)) :
    ∀ f ∈ l.takeWhile (fun e => p < e.1), p < f.1 := by
  intro f hf
  have := List.mem_takeWhile_imp hf
  simpa using this

theorem mem_dropWhile_lt (p : Int) :
    ∀ (l : List (Int × Node)), l.Pairwise (fun a b => b.1 < a.1) →
      (∀ e ∈ l, e.1 ≠ p) →
      ∀ f ∈ l.dropWhile (fun e => p < e.1), f.1 < p := by
  intro l
  induction l with
  | nil => intro _ _ f hf; simp [List.dropWhile] at hf
  | cons hd tl ih =>
      intro hsort hfresh f hf
      rw [List.dropWhile_cons] at hf
      by_cases hp : p < hd.1
      · rw [if_pos (by simpa using hp)] at hf
        exact ih (List.pairwise_cons.mp hsort).2
          (fun e he => hfresh e (List.mem_cons_of_mem hd he)) f hf
      · rw [if_neg (by simpa using hp)] at hf
        have hhd : hd.1 < p :=
          lt_of_le_of_ne (not_lt.mp hp) (hfresh hd (List.mem_cons_self hd tl))
        rcases List.mem_cons.mp hf with rfl | hf
        · exact hhd
        · exact lt_trans ((List.pairwise_cons.mp hsort).1 f hf) hhd

theorem inv_insertPolicy {c : Configuration} (hI : Inv c) (p : Int) (P : Policy) :
    Inv (c.insertPolicy p P).2 := by
  by_cases hocc : ∃ e ∈ c.policies, e.1 = p
  · have hguard : (c.policies.any fun e => e.1 = p) = true := by
      simp only [List.any_eq_true, decide_eq_true_eq]
      exact hocc
    simp only [Configuration.insertPolicy, hguard, if_true]
    exact hI
  · have hfresh : ∀ e ∈ c.policies, e.1 ≠ p := by
      push_neg at hocc
      exact hocc
    obtain ⟨hb, hpol, hstol, hother⟩ := insertPolicy_spec c p P hI hfresh
    have htmem : ∀ f ∈ c.policies.takeWhile (fun e => p < e.1), f ∈ c.policies := by
      intro f hf
      exact (List.takeWhile_sublist _).subset hf
    have hdmem : ∀ f ∈ c.policies.dropWhile (fun e => p < e.1), f ∈ c.policies := by
      intro f hf
      exact (List.dropWhile_sublist _).subset hf
    have htgt := mem_takeWhile_gt p c.policies
    have hdlt := mem_dropWhile_lt p c.policies hI.sorted hfresh
    have hsortT : (c.policies.takeWhile (fun e => p < e.1)).Pairwise
        (fun a b => b.1 < a.1) := hI.sorted.sublist (List.takeWhile_sublist _)
    have hsortD : (c.policies.dropWhile (fun e => p < e.1)).Pairwise
        (fun a b => b.1 < a.1) := hI.sorted.sublist (List.dropWhile_sublist _)
    have hstolen_owner : ∀ y ∈ stolenSet P (c.policies.dropWhile (fun e => p < e.1)),
        ∃ e0 ∈ c.policies.dropWhile (fun e => p < e.1),
          y ∈ e0.2.changes.man ∧ P.pred y = true := by
      intro y hy
      obtain ⟨e0, he0, hy0⟩ := (mem_stolenSet P y _).mp hy
      obtain ⟨hy1, hy2⟩ := Finset.mem_filter.mp hy0
      exact ⟨e0, he0, hy1, by simpa using hy2⟩
    constructor
    · rw [hpol]
      rw [List.pairwise_append]
      refine ⟨hsortT, ?_, ?_⟩
      · rw [List.pairwise_cons]
        constructor
        · intro b hb
          obtain ⟨b0, hb0, rfl⟩ := List.mem_map.mp hb
          exact hdlt b0 hb0
        · rw [List.pairwise_map]
          exact hsortD.imp (fun h => h)
      · intro a ha b hb
        rcases List.mem_cons.mp hb with rfl | hb
        · exact htgt a ha
        · obtain ⟨b0, hb0, rfl⟩ := List.mem_map.mp hb
          exact lt_trans (hdlt b0 hb0) (htgt a ha)
    · rw [hpol]
      intro f hf
      rcases List.mem_append.mp hf with hf1 | hf2
      · exact hI.rest f (htmem f hf1)
      · rcases List.mem_cons.mp hf2 with rfl | hf2
        · exact ⟨rfl, rfl⟩
        · obtain ⟨f0, hf0, rfl⟩ := List.mem_map.mp hf2
          exact ⟨rfl, rfl⟩
    · rw [hpol]
      intro f hf y hy
      rcases List.mem_append.mp hf with hf1 | hf2
      · exact hI.owned f (htmem f hf1) y hy
      · rcases List.mem_cons.mp hf2 with rfl | hf2
        · obtain ⟨e0, he0, hy1, hy2⟩ := hstolen_owner y hy
          exact hy2
        · obtain ⟨f0, hf0, rfl⟩ := List.mem_map.mp hf2
          exact hI.owned f0 (hdmem f0 hf0) y (Finset.mem_sdiff.mp hy).1
    · rw [hpol]
      intro a ha f hf hlt y hy
      rcases List.mem_append.mp ha with ha1 | ha2
      · -- a in higher
        rcases List.mem_append.mp hf with hf1 | hf2
        · exact hI.highest a (htmem a ha1) f (htmem f hf1) hlt y hy
        · rcases List.mem_cons.mp hf2 with rfl | hf2
          · exact absurd hlt (not_lt.mpr (le_of_lt (htgt a ha1)))
          · obtain ⟨f0, hf0, rfl⟩ := List.mem_map.mp hf2
            exact absurd hlt
              (not_lt.mpr (le_of_lt (lt_trans (hdlt f0 hf0) (htgt a ha1))))
      · rcases List.mem_cons.mp ha2 with rfl | ha2
        · -- a is the new node, its managed set is the stolen set
          obtain ⟨e0, he0, hy1, _⟩ := hstolen_owner y hy
          rcases List.mem_append.mp hf with hf1 | hf2
          · exact hI.highest e0 (hdmem e0 he0) f (htmem f hf1)
              (lt_trans (hdlt e0 he0) (htgt f hf1)) y hy1
          · rcases List.mem_cons.mp hf2 with rfl | hf2
            · exact absurd hlt (lt_irrefl p)
            · obtain ⟨f0, hf0, rfl⟩ := List.mem_map.mp hf2
              exact absurd hlt (not_lt.mpr (le_of_lt (hdlt f0 hf0)))
        · -- a comes from a lower node
          obtain ⟨a0, ha0, rfl⟩ := List.mem_map.mp ha2
          have hy0 : y ∈ a0.2.changes.man := (Finset.mem_sdiff.mp hy).1
          rcases List.mem_append.mp hf with hf1 | hf2
          · exact hI.highest a0 (hdmem a0 ha0) f (htmem f hf1) hlt y hy0
          · rcases List.mem_cons.mp hf2 with rfl | hf2
            · -- f is the new node with policy P
              obtain ⟨hyman, hynot⟩ := Finset.mem_sdiff.mp hy
              by_cases hpy : P.pred y = true
              · exact absurd (Finset.mem_filter.mpr ⟨hyman, by simpa using hpy⟩) hynot
              · simpa using hpy
            · obtain ⟨f0, hf0, rfl⟩ := List.mem_map.mp hf2
              exact hI.highest a0 (hdmem a0 ha0) f0 (hdmem f0 hf0) hlt y hy0
    · rw [hpol]
      intro f hf y hy
      rcases List.mem_append.mp hf with hf1 | hf2
      · -- higher node untouched: its sites are away from the stolen set
        have hnotA : y ∉ stolenSet P (c.policies.dropWhile (fun e => p < e.1)) := by
          intro hyA
          obtain ⟨e0, he0, hy1, _⟩ := hstolen_owner y hyA
          have heq := hI.manageDisjoint e0 (hdmem e0 he0) f (htmem f hf1) y hy1 hy
          have : e0.1 < f.1 := lt_trans (hdlt e0 he0) (htgt f hf1)
          rw [heq] at this
          exact absurd this (lt_irrefl _)
        obtain ⟨h1, h2⟩ := hother y hnotA
        rw [h1, h2]
        exact hI.consistent f (htmem f hf1) y hy
      · rcases List.mem_cons.mp hf2 with rfl | hf2
        · obtain ⟨h1, h2⟩ := hstol y hy
          exact ⟨h1, h2⟩
        · obtain ⟨f0, hf0, rfl⟩ := List.mem_map.mp hf2
          obtain ⟨hyman, hynot⟩ := Finset.mem_sdiff.mp hy
          have hnotA : y ∉ stolenSet P (c.policies.dropWhile (fun e => p < e.1)) := by
            intro hyA
            obtain ⟨e0, he0, hy1, hy2⟩ := hstolen_owner y hyA
            have heq := hI.manageDisjoint e0 (hdmem e0 he0) f0 (hdmem f0 hf0) y hy1 hyman
            rw [heq] at *
            exact hynot (Finset.mem_filter.mpr ⟨hyman, by simpa using hy2⟩)
          obtain ⟨h1, h2⟩ := hother y hnotA
          rw [h1, h2]
          exact hI.consistent f0 (hdmem f0 hf0) y hyman

/-! ### Characterization of the policy removal walk -/

theorem firstMatcher_mem :
    ∀ (ls : List (Int × Node)) (y : Nat) (e : Int × Node),
      firstMatcher ls y = some e → e ∈ ls ∧ e.2.policy.pred y = true := by
  intro ls
  induction ls with
  | nil => intro y e h; cases h
  | cons hd rest ih =>
      intro y e h
      rw [firstMatcher] at h
      by_cases hp : hd.2.policy.pred y = true
      · rw [if_pos (by simpa using hp)] at h
        cases h
        exact ⟨List.mem_cons_self hd rest, hp⟩
      · rw [if_neg (by simpa using hp)] at h
        obtain ⟨h1, h2⟩ := ih y e h
        exact ⟨List.mem_cons_of_mem hd h1, h2⟩

theorem firstMatcher_of_split (y : Nat) :
    ∀ (l1 : List (Int × Node)) (e : Int × Node) (l2 : List (Int × Node)),
      (∀ f ∈ l1, f.2.policy.pred y = false) →
      e.2.policy.pred y = true →
      firstMatcher (l1 ++ e :: l2) y = some e := by
  intro l1
  induction l1 with
  | nil =>
      intro e l2 _ hp
      simp [firstMatcher, hp]
  | cons hd rest ih =>
      intro e l2 hl1 hp
      have hhd : hd.2.policy.pred y = false := hl1 hd (List.mem_cons_self hd rest)
      rw [List.cons_append, firstMatcher, if_neg (by simp [hhd])]
      exact ih e l2 (fun f hf => hl1 f (List.mem_cons_of_mem hd hf)) hp

theorem afterUpdate_adopt (pol : Policy) (s man : Finset Nat) :
    (Node.mk pol ⟨s, ∅, man⟩).afterUpdate = Node.mk pol ⟨∅, ∅, man ∪ s⟩ := by
  by_cases hs : s = ∅ <;>
    simp [Node.afterUpdate, ChangeSet.pending, ChangeSet.applyChanges, hs]

theorem update_snd_adopt (pol : Policy) (s man : Finset Nat) (sm : SiteMap)
    (hcons : ∀ z ∈ man,
      sm.emitterOf z = pol.emitter ∧ sm.levelsOf z = pol.levels) :
    ∀ z, ((Node.mk pol ⟨s, ∅, man⟩).update sm false).2.emitterOf z =
        (if z ∈ s then pol.emitter else sm.emitterOf z) ∧
      ((Node.mk pol ⟨s, ∅, man⟩).update sm false).2.levelsOf z =
        (if z ∈ s then pol.levels else sm.levelsOf z) := by
  intro z
  rw [Node.update_snd]
  by_cases hs : s = ∅
  · rw [if_neg (by simp [ChangeSet.pending, hs])]
    rw [if_neg (by simp [hs]), if_neg (by simp [hs])]
    exact ⟨rfl, rfl⟩
  · rw [if_pos (by simp [ChangeSet.pending, hs])]
    simp only [applyUpdate_emitterOf, applyUpdate_levelsOf]
    by_cases hz : z ∈ s
    · rw [if_pos (Or.inl hz), if_pos (Or.inl hz), if_pos hz, if_pos hz]
      exact ⟨rfl, rfl⟩
    · by_cases hzm : z ∈ man
      · obtain ⟨h1, h2⟩ := hcons z hzm
        simp [hz, hzm, h1, h2]
      · simp [hz, hzm]

theorem offer_update_spec :
    ∀ (ls : List (Int × Node)) (n : Node) (sm : SiteMap),
      (∀ e ∈ ls, e.2.changes.ins = ∅ ∧ e.2.changes.rem = ∅) →
      (∀ e ∈ ls, ∀ z ∈ e.2.changes.man,
        sm.emitterOf z = e.2.policy.emitter ∧ sm.levelsOf z = e.2.policy.levels) →
      ls.Pairwise (fun a b => a.1 ≠ b.1) →
      (∀ e ∈ ls, ∀ z, z ∈ n.changes.man → z ∉ e.2.changes.man) →
      ((offerToAll ls n).2.policy = n.policy ∧
        (offerToAll ls n).2.changes.ins = n.changes.ins ∧
        (offerToAll ls n).2.changes.man =
          n.changes.man.filter (fun y => (firstMatcher ls y).isNone) ∧
        (offerToAll ls n).2.changes.rem =
          n.changes.rem ∪ n.changes.man.filter (fun y => (firstMatcher ls y).isSome)) ∧
      (updateAll (offerToAll ls n).1 sm).1 =
        ls.map (fun f => (f.1, Node.mk f.2.policy
          ⟨∅, ∅, f.2.changes.man ∪ n.changes.man.filter
            (fun y => (firstMatcher ls y).map Prod.fst = some f.1)⟩)) ∧
      (∀ y, (y ∉ n.changes.man ∨ firstMatcher ls y = none) →
        (updateAll (offerToAll ls n).1 sm).2.emitterOf y = sm.emitterOf y ∧
        (updateAll (offerToAll ls n).1 sm).2.levelsOf y = sm.levelsOf y) ∧
      (∀ y e, y ∈ n.changes.man → firstMatcher ls y = some e →
        (updateAll (offerToAll ls n).1 sm).2.emitterOf y = e.2.policy.emitter ∧
        (updateAll (offerToAll ls n).1 sm).2.levelsOf y = e.2.policy.levels) := by
  intro ls
  induction ls with
  | nil =>
      intro n sm _ _ _ _
      refine ⟨⟨rfl, rfl, ?_, ?_⟩, rfl, ?_, ?_⟩
      · ext z; simp [offerToAll, firstMatcher]
      · ext z; simp [offerToAll, firstMatcher]
      · intro y _; exact ⟨rfl, rfl⟩
      · intro y e _ h; cases h
  | cons hd rest ih =>
      intro n sm hrest hcons hkeys hdisj
      obtain ⟨hins0, hrem0⟩ := hrest hd (List.mem_cons_self hd rest)
      -- shapes after the head override
      have hover : hd.2.override n =
          (Node.mk hd.2.policy
              ⟨hd.2.policy.matchSet n.changes.man, ∅, hd.2.changes.man⟩,
            Node.mk n.policy
              ⟨n.changes.ins,
                n.changes.rem ∪ hd.2.policy.matchSet n.changes.man,
                n.changes.man \ hd.2.policy.matchSet n.changes.man⟩) := by
        simp [Node.override, ChangeSet.updateInsert, ChangeSet.updateRemove, hins0, hrem0]
      have hconshd : ∀ z ∈ hd.2.changes.man,
          sm.emitterOf z = hd.2.policy.emitter ∧ sm.levelsOf z = hd.2.policy.levels :=
        hcons hd (List.mem_cons_self hd rest)
      have hsm1 := update_snd_adopt hd.2.policy (hd.2.policy.matchSet n.changes.man)
        hd.2.changes.man sm hconshd
      -- the tail hypotheses
      have hrest' : ∀ e ∈ rest, e.2.changes.ins = ∅ ∧ e.2.changes.rem = ∅ :=
        fun e he => hrest e (List.mem_cons_of_mem hd he)
      have hmatch_sub : ∀ z ∈ hd.2.policy.matchSet n.changes.man, z ∈ n.changes.man :=
        fun z hz => (Finset.mem_filter.mp hz).1
      have hcons' : ∀ e ∈ rest, ∀ z ∈ e.2.changes.man,
          ((Node.mk hd.2.policy
              ⟨hd.2.policy.matchSet n.changes.man, ∅, hd.2.changes.man⟩).update
              sm false).2.emitterOf z = e.2.policy.emitter ∧
          ((Node.mk hd.2.policy
              ⟨hd.2.policy.matchSet n.changes.man, ∅, hd.2.changes.man⟩).update
              sm false).2.levelsOf z = e.2.policy.levels := by
        intro e he z hz
        have hznot : z ∉ hd.2.policy.matchSet n.changes.man := by
          intro hzin
          exact hdisj e (List.mem_cons_of_mem hd he) z (hmatch_sub z hzin) hz
        obtain ⟨h1, h2⟩ := hsm1 z
        rw [h1, h2, if_neg hznot, if_neg hznot]
        exact hcons e (List.mem_cons_of_mem hd he) z hz
      have hkeys' : rest.Pairwise (fun a b => a.1 ≠ b.1) :=
        (List.pairwise_cons.mp hkeys).2
      have hkeyshd : ∀ f ∈ rest, hd.1 ≠ f.1 := (List.pairwise_cons.mp hkeys).1
      have hdisj' : ∀ e ∈ rest, ∀ z,
          z ∈ (Node.mk n.policy
            ⟨n.changes.ins,
              n.changes.rem ∪ hd.2.policy.matchSet n.changes.man,
              n.changes.man \ hd.2.policy.matchSet n.changes.man⟩).changes.man →
          z ∉ e.2.changes.man := by
        intro e he z hz
        exact hdisj e (List.mem_cons_of_mem hd he) z (Finset.mem_sdiff.mp hz).1
      obtain ⟨⟨ihpol, ihins, ihman, ihrem⟩, ihlist, ihkeep, ihclaim⟩ :=
        ih (Node.mk n.policy
            ⟨n.changes.ins,
              n.changes.rem ∪ hd.2.policy.matchSet n.changes.man,
              n.changes.man \ hd.2.policy.matchSet n.changes.man⟩)
          ((Node.mk hd.2.policy
            ⟨hd.2.policy.matchSet n.changes.man, ∅, hd.2.changes.man⟩).update
            sm false).2
          hrest' hcons' hkeys' hdisj'
      -- unfold one step of both walks
      have hunfold : offerToAll (hd :: rest) n =
          ((hd.1, Node.mk hd.2.policy
              ⟨hd.2.policy.matchSet n.changes.man, ∅, hd.2.changes.man⟩) ::
            (offerToAll rest (Node.mk n.policy
              ⟨n.changes.ins,
                n.changes.rem ∪ hd.2.policy.matchSet n.changes.man,
                n.changes.man \ hd.2.policy.matchSet n.changes.man⟩)).1,
            (offerToAll rest (Node.mk n.policy
              ⟨n.changes.ins,
                n.changes.rem ∪ hd.2.policy.matchSet n.changes.man,
                n.changes.man \ hd.2.policy.matchSet n.changes.man⟩)).2) := by
        simp only [offerToAll, hover]
      refine ⟨⟨?_, ?_, ?_, ?_⟩, ?_, ?_, ?_⟩
      · rw [hunfold]; exact ihpol
      · rw [hunfold]; exact ihins
      · rw [hunfold]
        rw [ihman]
        ext z
        simp only [Finset.mem_filter, Finset.mem_sdiff, firstMatcher,
          Policy.matchSet]
        by_cases hz : hd.2.policy.pred z = true <;> simp [hz]
      · rw [hunfold]
        rw [ihrem]
        ext z
        simp only [Finset.mem_union, Finset.mem_filter, Finset.mem_sdiff,
          firstMatcher, Policy.matchSet]
        by_cases hz : hd.2.policy.pred z = true <;> simp [hz]
      · rw [hunfold]
        simp only [updateAll]
        rw [Node.update_false_fst, afterUpdate_adopt, ihlist, List.map_cons]
        have hhead : n.changes.man.filter
            (fun y => (firstMatcher (hd :: rest) y).map Prod.fst = some hd.1) =
              hd.2.policy.matchSet n.changes.man := by
          ext z
          simp only [Finset.mem_filter, Policy.matchSet, firstMatcher]
          by_cases hz : hd.2.policy.pred z = true
          · simp [hz]
          · simp only [hz, Bool.false_eq_true, if_false]
            constructor
            · rintro ⟨hzm, hfm⟩
              obtain ⟨e, he1, he2⟩ := Option.map_eq_some'.mp hfm
              obtain ⟨hemem, _⟩ := firstMatcher_mem rest z e he1
              exact absurd he2 (fun hc => hkeyshd e hemem hc.symm)
            · rintro ⟨_, hcontra⟩
              exact absurd hcontra (by simp [hz])
        have htail : rest.map (fun f => (f.1, Node.mk f.2.policy
            ⟨∅, ∅, f.2.changes.man ∪
              (n.changes.man \ hd.2.policy.matchSet n.changes.man).filter
                (fun y => (firstMatcher rest y).map Prod.fst = some f.1)⟩)) =
            rest.map (fun f => (f.1, Node.mk f.2.policy
            ⟨∅, ∅, f.2.changes.man ∪ n.changes.man.filter
              (fun y => (firstMatcher (hd :: rest) y).map Prod.fst = some f.1)⟩)) := by
          refine List.map_congr_left ?_
          intro f hf
          have hfilter : (n.changes.man \ hd.2.policy.matchSet n.changes.man).filter
              (fun y => (firstMatcher rest y).map Prod.fst = some f.1) =
                n.changes.man.filter
              (fun y => (firstMatcher (hd :: rest) y).map Prod.fst = some f.1) := by
            ext z
            by_cases hz : hd.2.policy.pred z = true <;>
              simp [Policy.matchSet, firstMatcher, hz, hkeyshd f hf]
          rw [hfilter]
        rw [htail, hhead]
      · -- sites of messages nobody claims
        rw [hunfold]
        intro y hy
        simp only [updateAll]
        have hynotm : y ∉ hd.2.policy.matchSet n.changes.man := by
          rcases hy with hy | hy
          · intro hc; exact hy (hmatch_sub y hc)
          · intro hc
            rw [firstMatcher, if_pos (by
              simpa using (Finset.mem_filter.mp hc).2)] at hy
            cases hy
        have hy' : y ∉ (Node.mk n.policy
            ⟨n.changes.ins,
              n.changes.rem ∪ hd.2.policy.matchSet n.changes.man,
              n.changes.man \ hd.2.policy.matchSet n.changes.man⟩).changes.man ∨
            firstMatcher rest y = none := by
          rcases hy with hy | hy
          · exact Or.inl (by
              intro hc
              exact hy (Finset.mem_sdiff.mp hc).1)
          · rw [firstMatcher] at hy
            by_cases hp : hd.2.policy.pred y = true
            · rw [if_pos (by simpa using hp)] at hy; cases hy
            · rw [if_neg (by simpa using hp)] at hy
              exact Or.inr hy
        obtain ⟨k1, k2⟩ := ihkeep y hy'
        obtain ⟨m1, m2⟩ := hsm1 y
        rw [k1, k2, m1, m2, if_neg hynotm, if_neg hynotm]
        exact ⟨rfl, rfl⟩
      · -- sites claimed by the first matching lower node
        rw [hunfold]
        intro y e hym hfm
        simp only [updateAll]
        rw [firstMatcher] at hfm
        by_cases hp : hd.2.policy.pred y = true
        · rw [if_pos (by simpa using hp)] at hfm
          cases hfm
          have hymatch : y ∈ hd.2.policy.matchSet n.changes.man :=
            Finset.mem_filter.mpr ⟨hym, by simpa using hp⟩
          have hy' : y ∉ (Node.mk n.policy
              ⟨n.changes.ins,
                n.changes.rem ∪ hd.2.policy.matchSet n.changes.man,
                n.changes.man \ hd.2.policy.matchSet n.changes.man⟩).changes.man ∨
              firstMatcher rest y = none := by
            refine Or.inl ?_
            intro hc
            exact (Finset.mem_sdiff.mp hc).2 hymatch
          obtain ⟨k1, k2⟩ := ihkeep y hy'
          obtain ⟨m1, m2⟩ := hsm1 y
          rw [k1, k2, m1, m2, if_pos hymatch, if_pos hymatch]
          exact ⟨rfl, rfl⟩
        · rw [if_neg (by simpa using hp)] at hfm
          have hynotm : y ∉ hd.2.policy.matchSet n.changes.man := by
            intro hc
            exact absurd (by simpa using (Finset.mem_filter.mp hc).2) hp
          have hym' : y ∈ (Node.mk n.policy
              ⟨n.changes.ins,
                n.changes.rem ∪ hd.2.policy.matchSet n.changes.man,
                n.changes.man \ hd.2.policy.matchSet n.changes.man⟩).changes.man :=
            Finset.mem_sdiff.mpr ⟨hym, hynotm⟩
          exact ihclaim y e hym' hfm

theorem update_snd_nowrites (n : Node) (sm : SiteMap) (f : Bool)
    (hins : n.changes.ins = ∅) (hman : n.changes.man = ∅) :
    ∀ z, (n.update sm f).2.emitterOf z = sm.emitterOf z ∧
      (n.update sm f).2.levelsOf z = sm.levelsOf z := by
  intro z
  rw [Node.update_snd]
  split
  · simp only [applyUpdate_emitterOf, applyUpdate_levelsOf]
    rw [if_neg (by simp [hins, hman]), if_neg (by simp [hins, hman])]
    exact ⟨rfl, rfl⟩
  · exact ⟨rfl, rfl⟩

theorem firstMatcher_highest :
    ∀ (ls : List (Int × Node)), ls.Pairwise (fun a b => b.1 < a.1) →
      ∀ (y : Nat) (e : Int × Node), firstMatcher ls y = some e →
        ∀ f ∈ ls, e.1 < f.1 → f.2.policy.pred y = false := by
  intro ls
  induction ls with
  | nil => intro _ y e h; cases h
  | cons hd rest ih =>
      intro hsort y e hfm f hf hlt
      rw [firstMatcher] at hfm
      by_cases hp : hd.2.policy.pred y = true
      · rw [if_pos (by simpa using hp)] at hfm
        cases hfm
        rcases List.mem_cons.mp hf with rfl | hf
        · exact absurd hlt (lt_irrefl _)
        · exact absurd hlt
            (not_lt.mpr (le_of_lt ((List.pairwise_cons.mp hsort).1 f hf)))
      · rw [if_neg (by simpa using hp)] at hfm
        rcases List.mem_cons.mp hf with rfl | hf
        · simpa using hp
        · exact ih (List.pairwise_cons.mp hsort).2 y e hfm f hf hlt

theorem removePolicy_spec (c : Configuration) (p : Int) (P : Policy)
    (nd : Int × Node) (lower : List (Int × Node)) (hI : Inv c)
    (hdrop : c.policies.dropWhile (fun e => p < e.1) = nd :: lower)
    (hkey : nd.1 = p) (hpid : nd.2.policy.pid = P.pid) :
    (c.removePolicy p P).1 = true ∧
    (c.removePolicy p P).2.policies =
      c.policies.takeWhile (fun e => p < e.1) ++
        lower.map (fun f => (f.1, Node.mk f.2.policy
          ⟨∅, ∅, f.2.changes.man ∪ nd.2.changes.man.filter
            (fun y => (firstMatcher lower y).map Prod.fst = some f.1)⟩)) ∧
    (∀ y, (y ∉ nd.2.changes.man ∨ firstMatcher lower y = none) →
      (c.removePolicy p P).2.sites.emitterOf y = c.sites.emitterOf y ∧
      (c.removePolicy p P).2.sites.levelsOf y = c.sites.levelsOf y) ∧
    (∀ y e, y ∈ nd.2.changes.man → firstMatcher lower y = some e →
      (c.removePolicy p P).2.sites.emitterOf y = e.2.policy.emitter ∧
      (c.removePolicy p P).2.sites.levelsOf y = e.2.policy.levels) := by
  have hdecomp : c.policies =
      c.policies.takeWhile (fun e => p < e.1) ++ nd :: lower := by
    rw [← hdrop, List.takeWhile_append_dropWhile]
  have hndmem : nd ∈ c.policies := by
    rw [hdecomp]
    exact List.mem_append_right _ (List.mem_cons_self nd lower)
  have hlowmem : ∀ f ∈ lower, f ∈ c.policies := by
    intro f hf
    rw [hdecomp]
    exact List.mem_append_right _ (List.mem_cons_of_mem nd hf)
  have hsortdl : (nd :: lower).Pairwise (fun a b => b.1 < a.1) := by
    rw [← hdrop]
    exact hI.sorted.sublist (List.dropWhile_sublist _)
  have hsortlow : lower.Pairwise (fun a b => b.1 < a.1) :=
    (List.pairwise_cons.mp hsortdl).2
  have hlowlt : ∀ f ∈ lower, f.1 < nd.1 := (List.pairwise_cons.mp hsortdl).1
  obtain ⟨hndins, hndrem⟩ := hI.rest nd hndmem
  -- the removed node after its sites have been offered and the
  -- remaining ones moved to the remove set writes nothing
  have hnowrites := update_snd_nowrites
    (Node.mk (offerToAll lower nd.2).2.policy
      ⟨(offerToAll lower nd.2).2.changes.ins,
        (offerToAll lower nd.2).2.changes.rem ∪ (offerToAll lower nd.2).2.changes.man,
        ∅⟩)
  have hrest' : ∀ e ∈ lower, e.2.changes.ins = ∅ ∧ e.2.changes.rem = ∅ := by
    intro e he
    exact hI.rest e (hlowmem e he)
  have hkeys' : lower.Pairwise (fun a b => a.1 ≠ b.1) :=
    hsortlow.imp (fun h => ne_of_gt h)
  have hdisj' : ∀ e ∈ lower, ∀ z, z ∈ nd.2.changes.man → z ∉ e.2.changes.man := by
    intro e he z hz hze
    have heq := hI.manageDisjoint e (hlowmem e he) nd hndmem z hze hz
    have := hlowlt e he
    rw [heq] at this
    exact absurd this (lt_irrefl _)
  -- unfold the operation
  have hguard : (nd.1 = p ∧ nd.2.policy.pid = P.pid) := ⟨hkey, hpid⟩
  have hstep : c.removePolicy p P =
      (true,
        ⟨c.policies.takeWhile (fun e => p < e.1) ++
          (updateAll (offerToAll lower nd.2).1
            ((Node.mk (offerToAll lower nd.2).2.policy
              ⟨(offerToAll lower nd.2).2.changes.ins,
                (offerToAll lower nd.2).2.changes.rem ∪
                  (offerToAll lower nd.2).2.changes.man, ∅⟩).update c.sites false).2).1,
        (updateAll (offerToAll lower nd.2).1
          ((Node.mk (offerToAll lower nd.2).2.policy
            ⟨(offerToAll lower nd.2).2.changes.ins,
              (offerToAll lower nd.2).2.changes.rem ∪
                (offerToAll lower nd.2).2.changes.man, ∅⟩).update c.sites false).2).2⟩) := by
    simp only [Configuration.removePolicy, hdrop, hguard, and_self, if_true]
  have hcons0 : ∀ e ∈ lower, ∀ z ∈ e.2.changes.man,
      c.sites.emitterOf z = e.2.policy.emitter ∧
      c.sites.levelsOf z = e.2.policy.levels := by
    intro e he z hz
    exact hI.consistent e (hlowmem e he) z hz
  obtain ⟨⟨hn1pol, hn1ins, hn1man, hn1rem⟩, _, _, _⟩ :=
    offer_update_spec lower nd.2 c.sites hrest' hcons0 hkeys' hdisj'
  have hinsn2 : (Node.mk (offerToAll lower nd.2).2.policy
      ⟨(offerToAll lower nd.2).2.changes.ins,
        (offerToAll lower nd.2).2.changes.rem ∪ (offerToAll lower nd.2).2.changes.man,
        ∅⟩).changes.ins = ∅ := by
    simpa using hn1ins.trans hndins
  have hsm1 := hnowrites c.sites false hinsn2 rfl
  have hcons1 : ∀ e ∈ lower, ∀ z ∈ e.2.changes.man,
      ((Node.mk (offerToAll lower nd.2).2.policy
        ⟨(offerToAll lower nd.2).2.changes.ins,
          (offerToAll lower nd.2).2.changes.rem ∪
            (offerToAll lower nd.2).2.changes.man, ∅⟩).update c.sites false).2.emitterOf z =
        e.2.policy.emitter ∧
      ((Node.mk (offerToAll lower nd.2).2.policy
        ⟨(offerToAll lower nd.2).2.changes.ins,
          (offerToAll lower nd.2).2.changes.rem ∪
            (offerToAll lower nd.2).2.changes.man, ∅⟩).update c.sites false).2.levelsOf z =
        e.2.policy.levels := by
    intro e he z hz
    obtain ⟨h1, h2⟩ := hsm1 z
    rw [h1, h2]
    exact hcons0 e he z hz
  obtain ⟨_, hlist, hkeep, hclaim⟩ :=
    offer_update_spec lower nd.2
      ((Node.mk (offerToAll lower nd.2).2.policy
        ⟨(offerToAll lower nd.2).2.changes.ins,
          (offerToAll lower nd.2).2.changes.rem ∪
            (offerToAll lower nd.2).2.changes.man, ∅⟩).update c.sites false).2
      hrest' hcons1 hkeys' hdisj'
  refine ⟨by rw [hstep], ?_, ?_, ?_⟩
  · rw [hstep]
    simp only []
    rw [hlist]
  · intro y hy
    rw [hstep]
    obtain ⟨k1, k2⟩ := hkeep y hy
    obtain ⟨m1, m2⟩ := hsm1 y
    simp only []
    rw [k1, k2, m1, m2]
    exact ⟨rfl, rfl⟩
  · intro y e hym hfm
    rw [hstep]
    obtain ⟨k1, k2⟩ := hclaim y e hym hfm
    simp only []
    rw [k1, k2]
    exact ⟨rfl, rfl⟩

theorem inv_removePolicy {c : Configuration} (hI : Inv c) (p : Int) (P : Policy) :
    Inv (c.removePolicy p P).2 := by
  cases hdrop : c.policies.dropWhile (fun e => p < e.1) with
  | nil =>
      simp only [Configuration.removePolicy, hdrop]
      exact hI
  | cons nd lower =>
      by_cases hguard : nd.1 = p ∧ nd.2.policy.pid = P.pid
      · obtain ⟨hkey, hpid⟩ := hguard
        obtain ⟨hb, hpol, hkeepv, hclaimv⟩ :=
          removePolicy_spec c p P nd lower hI hdrop hkey hpid
        have hdecomp : c.policies =
            c.policies.takeWhile (fun e => p < e.1) ++ nd :: lower := by
          rw [← hdrop, List.takeWhile_append_dropWhile]
        have hndmem : nd ∈ c.policies := by
          rw [hdecomp]
          exact List.mem_append_right _ (List.mem_cons_self nd lower)
        have hlowmem : ∀ f ∈ lower, f ∈ c.policies := by
          intro f hf
          rw [hdecomp]
          exact List.mem_append_right _ (List.mem_cons_of_mem nd hf)
        have htmem : ∀ f ∈ c.policies.takeWhile (fun e => p < e.1), f ∈ c.policies := by
          intro f hf
          exact (List.takeWhile_sublist _).subset hf
        have htgt := mem_takeWhile_gt p c.policies
        have hsorted0 : (c.policies.takeWhile (fun e => p < e.1) ++
            nd :: lower).Pairwise (fun a b => b.1 < a.1) := hdecomp ▸ hI.sorted
        have hsortdl : (nd :: lower).Pairwise (fun a b => b.1 < a.1) :=
          (List.pairwise_append.mp hsorted0).2.1
        have hsortlow : lower.Pairwise (fun a b => b.1 < a.1) :=
          (List.pairwise_cons.mp hsortdl).2
        have hlowlt : ∀ f ∈ lower, f.1 < p := by
          intro f hf
          rw [← hkey]
          exact (List.pairwise_cons.mp hsortdl).1 f hf
        have hdisjN : ∀ e ∈ lower, ∀ z, z ∈ nd.2.changes.man → z ∉ e.2.changes.man := by
          intro e he z hz hze
          have heq := hI.manageDisjoint e (hlowmem e he) nd hndmem z hze hz
          have hlt := hlowlt e he
          rw [heq, hkey] at hlt
          exact absurd hlt (lt_irrefl _)
        have hclaimmem : ∀ f0 ∈ lower, ∀ y,
            y ∈ nd.2.changes.man.filter
              (fun y => (firstMatcher lower y).map Prod.fst = some f0.1) →
            y ∈ nd.2.changes.man ∧ firstMatcher lower y = some f0 := by
          intro f0 hf0 y hy
          obtain ⟨hym, hfm⟩ := Finset.mem_filter.mp hy
          obtain ⟨e, he1, he2⟩ := Option.map_eq_some'.mp hfm
          obtain ⟨hemem, _⟩ := firstMatcher_mem lower y e he1
          have heq := keys_unique hsortlow e hemem f0 hf0 he2
          rw [heq] at he1
          exact ⟨hym, he1⟩
        constructor
        · rw [hpol]
          rw [List.pairwise_append]
          refine ⟨(List.pairwise_append.mp hsorted0).1, ?_, ?_⟩
          · rw [List.pairwise_map]
            exact hsortlow.imp (fun h => h)
          · intro a ha b hb
            obtain ⟨b0, hb0, rfl⟩ := List.mem_map.mp hb
            exact (List.pairwise_append.mp hsorted0).2.2 a ha b0
              (List.mem_cons_of_mem nd hb0)
        · rw [hpol]
          intro f hf
          rcases List.mem_append.mp hf with hf1 | hf2
          · exact hI.rest f (htmem f hf1)
          · obtain ⟨f0, hf0, rfl⟩ := List.mem_map.mp hf2
            exact ⟨rfl, rfl⟩
        · rw [hpol]
          intro f hf y hy
          rcases List.mem_append.mp hf with hf1 | hf2
          · exact hI.owned f (htmem f hf1) y hy
          · obtain ⟨f0, hf0, rfl⟩ := List.mem_map.mp hf2
            rcases Finset.mem_union.mp hy with hy1 | hy2
            · exact hI.owned f0 (hlowmem f0 hf0) y hy1
            · obtain ⟨_, hfm⟩ := hclaimmem f0 hf0 y hy2
              exact (firstMatcher_mem lower y f0 hfm).2
        · rw [hpol]
          intro a ha f hf hlt y hy
          rcases List.mem_append.mp ha with ha1 | ha2
          · rcases List.mem_append.mp hf with hf1 | hf2
            · exact hI.highest a (htmem a ha1) f (htmem f hf1) hlt y hy
            · obtain ⟨f0, hf0, rfl⟩ := List.mem_map.mp hf2
              exact absurd hlt (not_lt.mpr
                (le_of_lt (lt_trans (hlowlt f0 hf0) (htgt a ha1))))
          · obtain ⟨a0, ha0, rfl⟩ := List.mem_map.mp ha2
            rcases Finset.mem_union.mp hy with hy1 | hy2
            · rcases List.mem_append.mp hf with hf1 | hf2
              · exact hI.highest a0 (hlowmem a0 ha0) f (htmem f hf1) hlt y hy1
              · obtain ⟨f0, hf0, rfl⟩ := List.mem_map.mp hf2
                exact hI.highest a0 (hlowmem a0 ha0) f0 (hlowmem f0 hf0) hlt y hy1
            · obtain ⟨hym, hfm⟩ := hclaimmem a0 ha0 y hy2
              rcases List.mem_append.mp hf with hf1 | hf2
              · have hnd : nd.1 < f.1 := by
                  rw [hkey]
                  exact htgt f hf1
                exact hI.highest nd hndmem f (htmem f hf1) hnd y hym
              · obtain ⟨f0, hf0, rfl⟩ := List.mem_map.mp hf2
                exact firstMatcher_highest lower hsortlow y a0 hfm f0 hf0 hlt
        · rw [hpol]
          intro f hf y hy
          rcases List.mem_append.mp hf with hf1 | hf2
          · have hynot : y ∉ nd.2.changes.man := by
              intro hyn
              have heq := hI.manageDisjoint f (htmem f hf1) nd hndmem y hy hyn
              have hgt := htgt f hf1
              rw [heq, hkey] at hgt
              exact absurd hgt (lt_irrefl _)
            obtain ⟨h1, h2⟩ := hkeepv y (Or.inl hynot)
            rw [h1, h2]
            exact hI.consistent f (htmem f hf1) y hy
          · obtain ⟨f0, hf0, rfl⟩ := List.mem_map.mp hf2
            rcases Finset.mem_union.mp hy with hy1 | hy2
            · have hynot : y ∉ nd.2.changes.man := by
                intro hyn
                exact hdisjN f0 hf0 y hyn hy1
              obtain ⟨h1, h2⟩ := hkeepv y (Or.inl hynot)
              rw [h1, h2]
              exact hI.consistent f0 (hlowmem f0 hf0) y hy1
            · obtain ⟨hym, hfm⟩ := hclaimmem f0 hf0 y hy2
              exact hclaimv y f0 hym hfm
      · simp only [Configuration.removePolicy, hdrop, if_neg hguard]
        exact hI

theorem updateAll_id :
    ∀ (ls : List (Int × Node)) (sm : SiteMap),
      (∀ e ∈ ls, e.2.changes.ins = ∅ ∧ e.2.changes.rem = ∅) →
      updateAll ls sm = (ls, sm) := by
  intro ls
  induction ls with
  | nil => intro sm _; rfl
  | cons e rest ih =>
      intro sm hrest
      obtain ⟨hins, hrem⟩ := hrest e (List.mem_cons_self e rest)
      have hpend : e.2.changes.pending = false := (pending_false_iff _).mpr ⟨hrem, hins⟩
      have hupd : e.2.update sm false = (e.2, sm) := by
        unfold Node.update
        rw [if_neg (by simp [hpend])]
      simp only [updateAll, hupd, ih sm
        (fun f hf => hrest f (List.mem_cons_of_mem e hf))]

theorem rescanLoop_id :
    ∀ (ls : List (Int × Node)) (n : Node),
      (∀ e ∈ ls, n.policy.matchSet e.2.changes.man = ∅) →
      rescanLoop n ls ∅ = (n, ls, ∅) := by
  intro ls
  induction ls with
  | nil => intro n _; rfl
  | cons e rest ih =>
      intro n hm
      have hmatch0 : n.policy.matchSet (∅ : Finset Nat) = ∅ := by
        simp [Policy.matchSet]
      have hadopt : e.2.adopt ∅ = (e.2, ∅) := by
        simp [Node.adopt, Policy.matchSet, ChangeSet.updateInsert]
      have hover : n.override e.2 = (n, e.2) := by
        simp [Node.override, hm e (List.mem_cons_self e rest),
          ChangeSet.updateInsert, ChangeSet.updateRemove]
      simp only [rescanLoop, hadopt, hover,
        ih n (fun f hf => hm f (List.mem_cons_of_mem e hf))]

theorem rescan_id {c : Configuration} (hI : Inv c) (p : Int) : (c.rescan p).2 = c := by
  cases hdrop : c.policies.dropWhile (fun e => p < e.1) with
  | nil =>
      simp only [Configuration.rescan, hdrop]
  | cons nd lower =>
      by_cases hkey : nd.1 = p
      · have hdecomp : c.policies =
            c.policies.takeWhile (fun e => p < e.1) ++ nd :: lower := by
          rw [← hdrop, List.takeWhile_append_dropWhile]
        have hndmem : nd ∈ c.policies := by
          rw [hdecomp]
          exact List.mem_append_right _ (List.mem_cons_self nd lower)
        have hlowmem : ∀ f ∈ lower, f ∈ c.policies := by
          intro f hf
          rw [hdecomp]
          exact List.mem_append_right _ (List.mem_cons_of_mem nd hf)
        obtain ⟨hndins, hndrem⟩ := hI.rest nd hndmem
        have hsortdl : (nd :: lower).Pairwise (fun a b => b.1 < a.1) := by
          rw [← hdrop]
          exact hI.sorted.sublist (List.dropWhile_sublist _)
        have hlowlt : ∀ f ∈ lower, f.1 < nd.1 := (List.pairwise_cons.mp hsortdl).1
        have hmatched : nd.2.policy.matchSet nd.2.changes.man = nd.2.changes.man := by
          apply Finset.filter_eq_self.mpr
          intro y hy
          simpa using hI.owned nd hndmem y hy
        have hrescan : nd.2.rescanSelf = nd.2 := by
          unfold Node.rescanSelf
          rw [hmatched]
          cases hnd2 : nd.2 with
          | mk pol cs =>
              cases cs with
              | mk i r m =>
                  rw [hnd2] at hndins hndrem
                  simp only at hndins hndrem
                  simp [hndins, hndrem]
        have hmzero : ∀ e ∈ lower, nd.2.policy.matchSet e.2.changes.man = ∅ := by
          intro e he
          apply Finset.filter_eq_empty_iff.mpr
          intro y hy
          simp only [Bool.not_eq_true]
          exact hI.highest e (hlowmem e he) nd hndmem (hlowlt e he) y hy
        have hloop := rescanLoop_id lower nd.2 hmzero
        have hnd0 : (Node.mk nd.2.policy ⟨∅, ∅, nd.2.changes.man⟩).update c.sites false =
            (Node.mk nd.2.policy ⟨∅, ∅, nd.2.changes.man⟩, c.sites) := by
          unfold Node.update
          rw [if_neg (by simp [ChangeSet.pending])]
        have hua := updateAll_id lower c.sites
          (fun f hf => hI.rest f (hlowmem f hf))
        have hnode : Node.mk nd.2.policy ⟨∅, ∅, nd.2.changes.man⟩ = nd.2 := by
          cases hnd2 : nd.2 with
          | mk pol cs =>
              cases cs with
              | mk i r m =>
                  rw [hnd2] at hndins hndrem
                  simp only at hndins hndrem
                  subst hndins hndrem
                  rfl
        have hpair : (p, nd.2) = nd := by
          rw [← hkey]
        simp only [Configuration.rescan, hdrop, if_pos hkey, hrescan, hndrem, hloop,
          hndins, hnd0, hua]
        rw [hnode, hpair, ← hdecomp]
      · simp only [Configuration.rescan, hdrop, if_neg hkey]

theorem inv_rescan {c : Configuration} (hI : Inv c) (p : Int) : Inv (c.rescan p).2 := by
  rw [rescan_id hI p]
  exact hI

theorem inv_updatePriority {c : Configuration} (hI : Inv c) (p : Int) :
    Inv (c.updatePriority p).2 := by
  cases hdrop : c.policies.dropWhile (fun e => p < e.1) with
  | nil =>
      simp only [Configuration.updatePriority, hdrop]
      exact hI
  | cons nd lower =>
      by_cases hkey : nd.1 = p
      · have hdecomp : c.policies =
            c.policies.takeWhile (fun e => p < e.1) ++ nd :: lower := by
          rw [← hdrop, List.takeWhile_append_dropWhile]
        have hndmem : nd ∈ c.policies := by
          rw [hdecomp]
          exact List.mem_append_right _ (List.mem_cons_self nd lower)
        obtain ⟨hndins, hndrem⟩ := hI.rest nd hndmem
        have hn1 : (nd.2.update c.sites true).1 = nd.2 := by
          rw [Node.update_fst, if_pos (by simp)]
          cases hnd2 : nd.2 with
          | mk pol cs =>
              cases cs with
              | mk i r m =>
                  rw [hnd2] at hndins hndrem
                  simp only at hndins hndrem
                  subst hndins hndrem
                  simp [ChangeSet.applyChanges]
        have hsm : ∀ z, (nd.2.update c.sites true).2.emitterOf z = c.sites.emitterOf z ∧
            (nd.2.update c.sites true).2.levelsOf z = c.sites.levelsOf z := by
          intro z
          rw [Node.update_snd, if_pos (by simp)]
          simp only [applyUpdate_emitterOf, applyUpdate_levelsOf]
          by_cases hz : z ∈ nd.2.changes.ins ∨ z ∈ nd.2.changes.man
          · rcases hz with hz | hz
            · exact absurd hz (by simp [hndins])
            · obtain ⟨h1, h2⟩ := hI.consistent nd hndmem z hz
              simp [hz, h1, h2]
          · simp [if_neg hz]
        have hpair : (p, nd.2) = nd := by
          rw [← hkey]
        have hpol : (c.updatePriority p).2.policies = c.policies := by
          simp only [Configuration.updatePriority, hdrop, if_pos hkey, hn1]
          rw [hpair, ← hdecomp]
        have hsites : ∀ z,
            (c.updatePriority p).2.sites.emitterOf z = c.sites.emitterOf z ∧
            (c.updatePriority p).2.sites.levelsOf z = c.sites.levelsOf z := by
          intro z
          simp only [Configuration.updatePriority, hdrop, if_pos hkey]
          exact hsm z
        constructor
        · rw [hpol]; exact hI.sorted
        · rw [hpol]; exact hI.rest
        · rw [hpol]; exact hI.owned
        · rw [hpol]; exact hI.highest
        · rw [hpol]
          intro e he y hy
          obtain ⟨h1, h2⟩ := hsites y
          rw [h1, h2]
          exact hI.consistent e he y hy
      · simp only [Configuration.updatePriority, hdrop, if_neg hkey]
        exact hI

/-- Every reachable configuration satisfies the engine invariant. -/
theorem inv_of_reachable {c : Configuration} (h : c.Reachable) : Inv c := by
  induction h with
  | init sm =>
      constructor
      · exact List.Pairwise.nil
      · intro e he; cases he
      · intro e he; cases he
      · intro e he; cases he
      · intro e he; cases he
  | step _ hstep ih =>
      cases hstep with
      | insertLogger x c => exact inv_insertLogger ih x
      | removeLogger x c => exact inv_removeLogger ih x
      | insertPolicy p P c => exact inv_insertPolicy ih p P
      | removePolicy p P c => exact inv_removePolicy ih p P
      | rescan p c => exact inv_rescan ih p
      | updatePriority p c => exact inv_updatePriority ih p

theorem takeWhile_all_append (q : Int × Node → Bool) :
    ∀ (l1 : List (Int × Node)), (∀ e ∈ l1, q e = true) →
      ∀ (x : Int × Node) (l2 : List (Int × Node)), q x = false →
        (l1 ++ x :: l2).takeWhile q = l1 := by
  intro l1
  induction l1 with
  | nil =>
      intro _ x l2 hx
      simp [List.takeWhile_cons, hx]
  | cons hd tl ih =>
      intro h1 x l2 hx
      rw [List.cons_append, List.takeWhile_cons,
        if_pos (h1 hd (List.mem_cons_self hd tl))]
      rw [ih (fun e he => h1 e (List.mem_cons_of_mem hd he)) x l2 hx]

theorem dropWhile_all_append (q : Int × Node → Bool) :
    ∀ (l1 : List (Int × Node)), (∀ e ∈ l1, q e = true) →
      ∀ (x : Int × Node) (l2 : List (Int × Node)), q x = false →
        (l1 ++ x :: l2).dropWhile q = x :: l2 := by
  intro l1
  induction l1 with
  | nil =>
      intro _ x l2 hx
      simp [List.dropWhile_cons, hx]
  | cons hd tl ih =>
      intro h1 x l2 hx
      rw [List.cons_append, List.dropWhile_cons,
        if_pos (h1 hd (List.mem_cons_self hd tl))]
      exact ih (fun e he => h1 e (List.mem_cons_of_mem hd he)) x l2 hx

/-! ## Theorems for the claims on the components above -/

/-- C9 counterexample: the stream operator renders the out-of-range
value 5 as the fully qualified diagnostic, not as the unqualified
text the claim states. -/
theorem levelToText_out_of_range_qualified :
    levelToText 5 = "<invalid ::dynalog::Level(5)>" ∧
      levelToText 5 ≠ "<invalid Level(5)>" := by
  constructor
  · rfl
  · decide

/-- C9 amended: each in-range level index serializes to its uppercase
name, and every out-of-range index n serializes to the diagnostic
text containing the qualified enum name and the index. -/
theorem levelToText_spec :
    levelToText 0 = "CRITICAL" ∧ levelToText 1 = "ERROR" ∧ levelToText 2 = "WARNING" ∧
      levelToText 3 = "INFO" ∧ levelToText 4 = "VERBOSE" ∧
      ∀ n : Nat, 5 ≤ n →
        levelToText n = "<invalid ::dynalog::Level(" ++ Nat.repr n ++ ")>" := by
  refine ⟨rfl, rfl, rfl, rfl, rfl, ?_⟩
  intro n hn
  have h5 : ¬ n < levelNames.length := by
    simp only [levelNames, List.length]
    omega
  simp [levelToText, h5]

/-- C9 witness: the amended theorem applied at the concrete
out-of-range index 7. -/
theorem levelToText_spec_witness :
    (5 : Nat) ≤ 7 ∧ levelToText 7 = "<invalid ::dynalog::Level(" ++ Nat.repr 7 ++ ")>" :=
  ⟨by decide, levelToText_spec.2.2.2.2.2 7 (by decide)⟩

/-- C1: Logger::log returns without building a message and without any
emit call when the loaded emitter is null or the level bit is clear;
otherwise it builds exactly one message and makes exactly one emit
call on the loaded emitter with that message. -/
theorem Logger.log_fast_path (lg : Logger) (level : Nat) (msg : Nat) :
    ((lg.emitter = none ∨ levelGet lg.levels level = false) →
        lg.log level msg = { builds := 0, emits := [] }) ∧
      (∀ e, lg.emitter = some e → levelGet lg.levels level = true →
        lg.log level msg = { builds := 1, emits := [(e, msg)] }) := by
  constructor
  · intro h
    rcases h with h | h
    · simp [Logger.log, h]
    · cases he : lg.emitter with
      | none => simp [Logger.log, he]
      | some e => simp [Logger.log, he, h]
  · intro e he hl
    simp [Logger.log, he, hl]

/-- C1 witness: the theorem applied at a concrete enabled logger. -/
theorem Logger.log_fast_path_witness :
    (Logger.mk (some 4) 3).emitter = some 4 ∧
      levelGet (Logger.mk (some 4) 3).levels 1 = true ∧
      (Logger.mk (some 4) 3).log 1 9 = { builds := 1, emits := [(4, 9)] } :=
  ⟨rfl, by decide, (Logger.log_fast_path (Logger.mk (some 4) 3) 1 9).2 4 rfl (by decide)⟩

/-- C4 counterexample: a message carrying an enabled first level and a
disabled second level is delegated by the bootstrap sink, although the
claim (any captured disabled level forces a drop) demands a drop. The
mask 1 enables only level 0, the message captures levels 0 and 1. -/
theorem bootstrap_second_level_not_consulted :
    BootstrapEmitter.emit 1 [Captured.level 0, Captured.level 1] (some 7) = some 7 ∧
      levelGet 1 1 = false := by
  constructor
  · rfl
  · decide

/-- First Level element captured in a message, if any. -/
def firstLevel : List Captured → Option Nat
  | [] => none
  | Captured.other _ :: rest => firstLevel rest
  | Captured.level l :: _ => some l

/-- C4 amended: the bootstrap sink consults only the first captured
Level element: the message is dropped exactly when such an element
exists and its bit is clear in the site mask; otherwise the message is
delegated to the sink read back from the site (none models a null
read, which also delegates nowhere). -/
theorem bootstrap_first_level_gate (mask : Nat) (elems : List Captured)
    (installed : Option Nat) :
    BootstrapEmitter.emit mask elems installed =
      match firstLevel elems with
      | none => installed
      | some l => if levelGet mask l then installed else none := by
  induction elems with
  | nil => rfl
  | cons hd rest ih =>
      cases hd with
      | level l =>
          simp [BootstrapEmitter.emit, bootstrapScan, firstLevel]
      | other t =>
          simpa [BootstrapEmitter.emit, bootstrapScan, firstLevel] using ih

/-- C7: when the queue insert fails the message is dropped and exactly
the one-line queue-full diagnostic is written to standard error; when
it succeeds nothing is written. The void return type of the source
function is mirrored by InsertEffect carrying no error channel. -/
theorem Dispatcher.insert_diagnostics (queueAccepted : Bool) :
    (queueAccepted = false →
        Dispatcher.insert queueAccepted =
          { delivered := false, stderrOut := [dispatcherWarning] }) ∧
      (queueAccepted = true →
        Dispatcher.insert queueAccepted = { delivered := true, stderrOut := [] }) := by
  constructor <;> intro h <;> simp [Dispatcher.insert, h]

/-- C7 witness: the theorem applied at the concrete failing outcome. -/
theorem Dispatcher.insert_diagnostics_witness :
    Dispatcher.insert false = { delivered := false, stderrOut := [dispatcherWarning] } :=
  (Dispatcher.insert_diagnostics false).1 rfl

/-- C10: emplace destroys any stored object before constructing the
new one, allocates a fresh region only when the type does not fit the
current capacity, and leaves the buffer occupied by the new type;
clear on an empty buffer does nothing. -/
theorem ObjectBuffer.emplace_spec (b : ObjectBuffer) (ty : CppType) :
    ((b.emplace ty).2 =
        (match b.destructor with
          | none => []
          | some t => [BufEvent.destroyed t]) ++
        (if ty.size > b.capacity then [BufEvent.allocated ty.size] else []) ++
        [BufEvent.constructed ty.tag]) ∧
      (b.emplace ty).1.destructor = some ty.tag ∧
      (b.emplace ty).1.info = some ty.tag ∧
      (b.emplace ty).1.isEmpty = false ∧
      (ty.size ≤ b.capacity →
        (b.emplace ty).1.allocId = b.allocId ∧ (b.emplace ty).1.capacity = b.capacity) ∧
      (ty.size > b.capacity →
        (b.emplace ty).1.allocId = b.allocId + 1 ∧ (b.emplace ty).1.capacity = ty.size) ∧
      (b.isEmpty = true → b.clear = (b, [])) := by
  refine ⟨?_, ?_, ?_, ?_, ?_, ?_, ?_⟩
  · by_cases hfit : b.capacity < ty.size <;> cases hd : b.destructor <;>
      simp [ObjectBuffer.emplace, ObjectBuffer.resize, ObjectBuffer.clear, hd, hfit]
  · by_cases hfit : b.capacity < ty.size <;> cases hd : b.destructor <;>
      simp [ObjectBuffer.emplace, ObjectBuffer.resize, ObjectBuffer.clear, hd, hfit]
  · by_cases hfit : b.capacity < ty.size <;> cases hd : b.destructor <;>
      simp [ObjectBuffer.emplace, ObjectBuffer.resize, ObjectBuffer.clear, hd, hfit]
  · by_cases hfit : b.capacity < ty.size <;> cases hd : b.destructor <;>
      simp [ObjectBuffer.emplace, ObjectBuffer.resize, ObjectBuffer.clear,
        ObjectBuffer.isEmpty, hd, hfit]
  · intro hle
    have hfit : ¬ b.capacity < ty.size := not_lt.mpr hle
    cases hd : b.destructor <;>
      simp [ObjectBuffer.emplace, ObjectBuffer.resize, ObjectBuffer.clear, hd, hfit]
  · intro hgt
    have hfit : b.capacity < ty.size := hgt
    cases hd : b.destructor <;>
      simp [ObjectBuffer.emplace, ObjectBuffer.resize, ObjectBuffer.clear, hd, hfit]
  · intro hempty
    simp only [ObjectBuffer.isEmpty, decide_eq_true_eq] at hempty
    simp [ObjectBuffer.clear, hempty]

/-- C10 witness: the theorem applied at a concrete occupied buffer and
a type that fits, showing the in-place reuse conjuncts concretely. -/
theorem ObjectBuffer.emplace_spec_witness :
    (8 : Nat) ≤ 16 ∧
      ((ObjectBuffer.mk (some 3) (some 3) 16 0).emplace (CppType.mk 8 5)).1.allocId = 0 ∧
      ((ObjectBuffer.mk (some 3) (some 3) 16 0).emplace (CppType.mk 8 5)).1.capacity = 16 :=
  ⟨by decide,
    ((ObjectBuffer.emplace_spec (ObjectBuffer.mk (some 3) (some 3) 16 0)
      (CppType.mk 8 5)).2.2.2.2.1 (by decide)).1,
    ((ObjectBuffer.emplace_spec (ObjectBuffer.mk (some 3) (some 3) 16 0)
      (CppType.mk 8 5)).2.2.2.2.1 (by decide)).2⟩

/-- C2: in every reachable engine state, a site lies in the managed
set of at most one policy node, and the node holding it is the
highest-priority matcher: its own policy matches the site and no
strictly higher priority policy does, which is exactly what claiming
during a descending-priority offer walk produces. -/
theorem Configuration.manage_unique_highest (c : Configuration) (h : c.Reachable) :
    (∀ e ∈ c.policies, ∀ f ∈ c.policies, ∀ x,
        x ∈ e.2.changes.man → x ∈ f.2.changes.man → e = f) ∧
      ∀ e ∈ c.policies, ∀ x ∈ e.2.changes.man,
        e.2.policy.pred x = true ∧
          ∀ f ∈ c.policies, e.1 < f.1 → f.2.policy.pred x = false := by
  have hI := inv_of_reachable h
  refine ⟨hI.manageDisjoint, ?_⟩
  intro e he x hx
  exact ⟨hI.owned e he x hx, fun f hf hlt => hI.highest e he f hf hlt x hx⟩

/-- C2 witness: the theorem applied to the concrete reachable state
reached by installing a match-all policy at priority 0 and then
registering site 5. -/
theorem Configuration.manage_unique_highest_witness :
    Configuration.Reachable
        (((Configuration.mk [] (SiteMap.mk (fun _ => none) (fun _ => 0))).insertPolicy 0
            (Policy.mk 0 (fun _ => true) (some 1) 3)).2.insertLogger 5).2 ∧
      ((∀ e ∈ ((((Configuration.mk [] (SiteMap.mk (fun _ => none)
            (fun _ => 0))).insertPolicy 0
            (Policy.mk 0 (fun _ => true) (some 1) 3)).2.insertLogger 5).2).policies,
          ∀ f ∈ ((((Configuration.mk [] (SiteMap.mk (fun _ => none)
            (fun _ => 0))).insertPolicy 0
            (Policy.mk 0 (fun _ => true) (some 1) 3)).2.insertLogger 5).2).policies,
          ∀ x, x ∈ e.2.changes.man → x ∈ f.2.changes.man → e = f) ∧
        ∀ e ∈ ((((Configuration.mk [] (SiteMap.mk (fun _ => none)
            (fun _ => 0))).insertPolicy 0
            (Policy.mk 0 (fun _ => true) (some 1) 3)).2.insertLogger 5).2).policies,
          ∀ x ∈ e.2.changes.man,
            e.2.policy.pred x = true ∧
              ∀ f ∈ ((((Configuration.mk [] (SiteMap.mk (fun _ => none)
                (fun _ => 0))).insertPolicy 0
                (Policy.mk 0 (fun _ => true) (some 1) 3)).2.insertLogger 5).2).policies,
                e.1 < f.1 → f.2.policy.pred x = false) :=
  ⟨Configuration.Reachable.step
      (Configuration.Reachable.step
        (Configuration.Reachable.init (SiteMap.mk (fun _ => none) (fun _ => 0)))
        (Configuration.Step.insertPolicy 0 (Policy.mk 0 (fun _ => true) (some 1) 3) _))
      (Configuration.Step.insertLogger 5 _),
    Configuration.manage_unique_highest _
      (Configuration.Reachable.step
        (Configuration.Reachable.step
          (Configuration.Reachable.init (SiteMap.mk (fun _ => none) (fun _ => 0)))
          (Configuration.Step.insertPolicy 0 (Policy.mk 0 (fun _ => true) (some 1) 3) _))
        (Configuration.Step.insertLogger 5 _))⟩

/-- C3 evidence: concrete run of the configuration engine. A match-all
policy with sink 1 is installed at priority 0 and site 0 registers,
receiving sink 1. Removing site 0 succeeds, yet the update callback of
the policy never touches the newly removed subset, so the site keeps
sink 1 and remains enabled instead of having its sink cleared to
none. -/
theorem removeLogger_keeps_old_sink :
    (((((Configuration.mk [] (SiteMap.mk (fun _ => none)
          (fun _ => 0))).insertPolicy 0
          (Policy.mk 0 (fun _ => true) (some 1) 3)).2.insertLogger 0).2).removeLogger 0).1
        = true ∧
      (((((Configuration.mk [] (SiteMap.mk (fun _ => none)
          (fun _ => 0))).insertPolicy 0
          (Policy.mk 0 (fun _ => true) (some 1) 3)).2.insertLogger 0).2).removeLogger
          0).2.sites.emitterOf 0 = some 1 := by
  constructor
  · rfl
  · rfl

/-- C5 counterexample: when the priority is already occupied by the
same policy, insert-policy fails as a no-op but remove-policy then
removes the pre-existing node, so a site managed by it migrates to the
lower-priority catch-all and its sink changes from 2 to 9. The state
is reached from an empty engine by installing a catch-all with sink 9
at priority 0, a catch-all with sink 2 at priority 1, and site 0. -/
theorem insert_remove_policy_not_restoring :
    ((((((Configuration.mk [] (SiteMap.mk (fun _ => none) (fun _ => 0))).insertPolicy 0 (Policy.mk 0 (fun _ => true) (some 9) 7)).2.insertPolicy 1 (Policy.mk 1 (fun _ => true) (some 2) 5)).2.insertLogger 0).2.insertPolicy 1 (Policy.mk 1 (fun _ => true) (some 2) 5)).2.removePolicy 1 (Policy.mk 1 (fun _ => true) (some 2) 5)).2.sites.emitterOf 0 = some 9 ∧
      ((((Configuration.mk [] (SiteMap.mk (fun _ => none) (fun _ => 0))).insertPolicy 0 (Policy.mk 0 (fun _ => true) (some 9) 7)).2.insertPolicy 1 (Policy.mk 1 (fun _ => true) (some 2) 5)).2.insertLogger 0).2.sites.emitterOf 0 = some 2 ∧
      (some 9 : Option Nat) ≠ some 2 := by
  refine ⟨rfl, rfl, by decide⟩

/-- C5 amended: provided the priority is unoccupied (so the insertion
succeeds), insert-policy immediately followed by remove-policy of the
same policy at the same priority leaves every site with the sink and
mask it had before, in every reachable engine state. -/
theorem insert_remove_policy_roundtrip (c : Configuration) (p : Int) (P : Policy)
    (hreach : c.Reachable) (hfresh : ∀ e ∈ c.policies, e.1 ≠ p) :
    ∀ x, ((c.insertPolicy p P).2.removePolicy p P).2.sites.emitterOf x =
        c.sites.emitterOf x ∧
      ((c.insertPolicy p P).2.removePolicy p P).2.sites.levelsOf x =
        c.sites.levelsOf x := by
  have hI := inv_of_reachable hreach
  obtain ⟨hb, hpol, hstol, hother⟩ := insertPolicy_spec c p P hI hfresh
  have hI1 := inv_insertPolicy hI p P
  have htgt := mem_takeWhile_gt p c.policies
  have hdlt := mem_dropWhile_lt p c.policies hI.sorted hfresh
  have hdmem : ∀ f ∈ c.policies.dropWhile (fun e => p < e.1), f ∈ c.policies := by
    intro f hf
    exact (List.dropWhile_sublist _).subset hf
  have hsortD : (c.policies.dropWhile (fun e => p < e.1)).Pairwise
      (fun a b => b.1 < a.1) := hI.sorted.sublist (List.dropWhile_sublist _)
  have hdrop1 : (c.insertPolicy p P).2.policies.dropWhile (fun e => p < e.1) =
      (p, Node.mk P ⟨∅, ∅, stolenSet P (c.policies.dropWhile (fun e => p < e.1))⟩) ::
        (c.policies.dropWhile (fun e => p < e.1)).map
          (fun e => (e.1, Node.mk e.2.policy
            ⟨∅, ∅, e.2.changes.man \ P.matchSet e.2.changes.man⟩)) := by
    rw [hpol]
    refine dropWhile_all_append _ _ ?_ _ _ (by simp)
    intro e he
    simpa using htgt e he
  obtain ⟨hb2, hpol2, hkeep2, hclaim2⟩ :=
    removePolicy_spec (c.insertPolicy p P).2 p P
      (p, Node.mk P ⟨∅, ∅, stolenSet P (c.policies.dropWhile (fun e => p < e.1))⟩)
      ((c.policies.dropWhile (fun e => p < e.1)).map
        (fun e => (e.1, Node.mk e.2.policy
          ⟨∅, ∅, e.2.changes.man \ P.matchSet e.2.changes.man⟩)))
      hI1 hdrop1 rfl rfl
  intro x
  by_cases hxA : x ∈ stolenSet P (c.policies.dropWhile (fun e => p < e.1))
  · -- a stolen site goes back to its previous owner
    obtain ⟨e0, he0, hx0⟩ := (mem_stolenSet P x _).mp hxA
    have hxman : x ∈ e0.2.changes.man := (Finset.mem_filter.mp hx0).1
    obtain ⟨l1, l2, hsplit⟩ := List.append_of_mem he0
    have hl1gt : ∀ f ∈ l1, e0.1 < f.1 := sorted_middle_left (hsplit ▸ hsortD)
    have hl1false : ∀ f ∈ l1.map (fun e => (e.1, Node.mk e.2.policy
        ⟨∅, ∅, e.2.changes.man \ P.matchSet e.2.changes.man⟩)),
        f.2.policy.pred x = false := by
      intro f hf
      obtain ⟨f0, hf0, rfl⟩ := List.mem_map.mp hf
      have hf0mem : f0 ∈ c.policies := by
        apply hdmem
        rw [hsplit]
        exact List.mem_append_left _ hf0
      exact hI.highest e0 (hdmem e0 he0) f0 hf0mem (hl1gt f0 hf0) x hxman
    have hpe0 : e0.2.policy.pred x = true := hI.owned e0 (hdmem e0 he0) x hxman
    have hfm : firstMatcher
        ((c.policies.dropWhile (fun e => p < e.1)).map
          (fun e => (e.1, Node.mk e.2.policy
            ⟨∅, ∅, e.2.changes.man \ P.matchSet e.2.changes.man⟩))) x =
        some (e0.1, Node.mk e0.2.policy
          ⟨∅, ∅, e0.2.changes.man \ P.matchSet e0.2.changes.man⟩) := by
      rw [hsplit, List.map_append, List.map_cons]
      exact firstMatcher_of_split x _ _ _ hl1false hpe0
    obtain ⟨v1, v2⟩ := hclaim2 x _ hxA hfm
    obtain ⟨c1, c2⟩ := hI.consistent e0 (hdmem e0 he0) x hxman
    rw [v1, v2]
    exact ⟨c1.symm, c2.symm⟩
  · -- untouched sites keep their values through both operations
    obtain ⟨k1, k2⟩ := hkeep2 x (Or.inl hxA)
    obtain ⟨o1, o2⟩ := hother x hxA
    rw [k1, k2, o1, o2]
    exact ⟨rfl, rfl⟩

/-- C5 witness: the amended theorem applied to the concrete reachable
state holding a catch-all policy with sink 1 at priority 0 and site 0,
with the fresh priority 5 and a match-all policy with sink 2. -/
theorem insert_remove_policy_roundtrip_witness :
    Configuration.Reachable (((Configuration.mk [] (SiteMap.mk (fun _ => none) (fun _ => 0))).insertPolicy 0 (Policy.mk 0 (fun _ => true) (some 1) 3)).2.insertLogger 0).2 ∧
      (∀ e ∈ (((Configuration.mk [] (SiteMap.mk (fun _ => none) (fun _ => 0))).insertPolicy 0 (Policy.mk 0 (fun _ => true) (some 1) 3)).2.insertLogger 0).2.policies, e.1 ≠ 5) ∧
      (((((Configuration.mk [] (SiteMap.mk (fun _ => none) (fun _ => 0))).insertPolicy 0 (Policy.mk 0 (fun _ => true) (some 1) 3)).2.insertLogger 0).2.insertPolicy 5 (Policy.mk 1 (fun _ => true) (some 2) 5)).2.removePolicy 5 (Policy.mk 1 (fun _ => true) (some 2) 5)).2.sites.emitterOf 0 = (((Configuration.mk [] (SiteMap.mk (fun _ => none) (fun _ => 0))).insertPolicy 0 (Policy.mk 0 (fun _ => true) (some 1) 3)).2.insertLogger 0).2.sites.emitterOf 0 :=
  ⟨Configuration.Reachable.step
      (Configuration.Reachable.step
        (Configuration.Reachable.init (SiteMap.mk (fun _ => none) (fun _ => 0)))
        (Configuration.Step.insertPolicy 0 (Policy.mk 0 (fun _ => true) (some 1) 3) _))
      (Configuration.Step.insertLogger 0 _),
    by decide,
    (insert_remove_policy_roundtrip _ 5 (Policy.mk 1 (fun _ => true) (some 2) 5)
      (Configuration.Reachable.step
      (Configuration.Reachable.step
        (Configuration.Reachable.init (SiteMap.mk (fun _ => none) (fun _ => 0)))
        (Configuration.Step.insertPolicy 0 (Policy.mk 0 (fun _ => true) (some 1) 3) _))
      (Configuration.Step.insertLogger 0 _))
      (by decide) 0).1⟩

/-- C8: inserting a policy at a priority that is already occupied
fails with a false return and leaves the whole configuration, policy
map and site state alike, unchanged. -/
theorem Configuration.insertPolicy_occupied (c : Configuration) (p : Int) (P2 : Policy)
    (h : ∃ e ∈ c.policies, e.1 = p) :
    (c.insertPolicy p P2).1 = false ∧ (c.insertPolicy p P2).2 = c := by
  have hguard : (c.policies.any fun e => e.1 = p) = true := by
    simp only [List.any_eq_true, decide_eq_true_eq]
    exact h
  simp [Configuration.insertPolicy, hguard]

/-- C8 witness: the theorem applied to a concrete configuration with
priority 5 occupied. -/
theorem Configuration.insertPolicy_occupied_witness :
    (∃ e ∈ (Configuration.mk
        [(5, Node.mk (Policy.mk 0 (fun _ => false) none 0) ⟨∅, ∅, ∅⟩)]
        (SiteMap.mk (fun _ => none) (fun _ => 0))).policies, e.1 = 5) ∧
      ((Configuration.mk
        [(5, Node.mk (Policy.mk 0 (fun _ => false) none 0) ⟨∅, ∅, ∅⟩)]
        (SiteMap.mk (fun _ => none) (fun _ => 0))).insertPolicy 5
          (Policy.mk 1 (fun _ => true) (some 2) 5)).1 = false :=
  ⟨⟨(5, Node.mk (Policy.mk 0 (fun _ => false) none 0) ⟨∅, ∅, ∅⟩), by simp, rfl⟩,
    (Configuration.insertPolicy_occupied _ 5 (Policy.mk 1 (fun _ => true) (some 2) 5)
      ⟨(5, Node.mk (Policy.mk 0 (fun _ => false) none 0) ⟨∅, ∅, ∅⟩), by simp, rfl⟩).1⟩

end Dynalog
